import Mathlib

set_option autoImplicit false

/-! Verification development for the phoneme-scoring core of the UofT_Hacks
    singing trainer: the sequence scorer (aligner.py), the pronunciation
    profiles (pronunciation_profile.py at the repository root and under src/),
    and the input gate plus acoustic segmentation of audio_to_phonemes
    (src/user_phonemes.py). -/

/-- Helper for str.split(): accumulate non-whitespace runs (acc holds the
    current run reversed). -/
def splitWSAux : List Char → List Char → List String
  | [], acc => if acc.isEmpty then [] else [String.mk acc.reverse]
  | c :: cs, acc =>
    if c.isWhitespace then
      (if acc.isEmpty then splitWSAux cs []
       else String.mk acc.reverse :: splitWSAux cs [])
    else splitWSAux cs (c :: acc)

/-- Python str.split() with no argument: split on whitespace runs, dropping
    empty pieces. -/
def pySplit (s : String) : List String := splitWSAux s.data []

/-- Python falsiness of s.strip(): true exactly when the string is empty or
    all whitespace. -/
def pyBlank (s : String) : Bool := s.data.all Char.isWhitespace

/-- The unit-cost Levenshtein distance over whole tokens, written by the
    classic recurrence (insertion, deletion, substitution each cost 1).
    This is the specification-side definition used to state what the DP in
    aligner.py computes. -/
def levenshtein_spec : List String → List String → Nat
  | [], ys => ys.length
  | x :: xs, [] => (x :: xs).length
  | x :: xs, y :: ys =>
    min (levenshtein_spec xs (y :: ys) + 1)
      (min (levenshtein_spec (x :: xs) ys + 1)
        (levenshtein_spec xs ys + (if x = y then 0 else 1)))

/-- One inner pass of _levenshtein_distance (aligner.py lines 20-27): given
    the current token c1 of s1, the remaining tokens of s2, the tail of
    previous_row from index j on, and the value last appended to current_row,
    produce the remainder of current_row.  insertions = previous_row[j+1]+1,
    deletions = current_row[j]+1, substitutions = previous_row[j]+(c1 != c2). -/
def levRow (c1 : String) : List String → List Nat → Nat → List Nat
  | [], _, _ => []
  | c2 :: cs, p0 :: p1 :: ps, cur =>
    let cell := min (p1 + 1) (min (cur + 1) (p0 + (if c1 = c2 then 0 else 1)))
    cell :: levRow c1 cs (p1 :: ps) cell
  | _ :: _, _, _ => []

/-- The outer loop of _levenshtein_distance (aligner.py lines 20-27):
    previous_row is replaced by current_row once per token of s1; i is the
    0-based row index, so current_row starts with i + 1. -/
def levRows (s2 : List String) : List String → Nat → List Nat → List Nat
  | [], _, prev => prev
  | c1 :: cs, i, prev => levRows s2 cs (i + 1) ((i + 1) :: levRow c1 s2 prev (i + 1))

/-- _levenshtein_distance after its initial swap (aligner.py lines 16-29):
    returns len(s1) when s2 is empty, else runs the row DP starting from
    previous_row = range(len(s2) + 1) and returns previous_row[-1]. -/
def levenshtein_distance_core (s1 s2 : List String) : Nat :=
  if s2.length = 0 then s1.length
  else (levRows s2 s1 0 (List.range (s2.length + 1))).getLastD 0

/-- _levenshtein_distance (aligner.py lines 8-29): swaps the sequences so the
    first is at least as long, then runs the row DP. -/
def levenshtein_distance (s1 s2 : List String) : Nat :=
  if s1.length < s2.length then levenshtein_distance_core s2 s1
  else levenshtein_distance_core s1 s2

/-- phoneme_accuracy (aligner.py lines 32-56), on already-split token lists:
    1 - distance / max(len(ref), len(pred)), and 1.0 when both are empty. -/
def phoneme_accuracy (reference predicted : List String) : ℚ :=
  if max reference.length predicted.length = 0 then 1
  else 1 - (levenshtein_distance reference predicted : ℚ) /
    ((max reference.length predicted.length : Nat) : ℚ)

/-- phoneme_accuracy as called on space-separated phoneme strings. -/
def phoneme_accuracy_str (reference predicted : String) : ℚ :=
  phoneme_accuracy (pySplit reference) (pySplit predicted)

/-- The row of edit distances that the DP maintains: the entries of
    rowSpec u v ys are the distances from u to (reversed prefix of ys) ++ v,
    one entry per prefix of ys including the empty one. -/
def rowSpec (u : List String) : List String → List String → List Nat
  | v, [] => [levenshtein_spec u v]
  | v, c :: cs => levenshtein_spec u v :: rowSpec u (c :: v) cs

/-- Python dict with int values as an insertion-ordered association list;
    defaultdict(int) semantics: a missing key reads as 0. -/
def dget (d : List (String × Nat)) (k : String) : Nat :=
  ((d.find? (fun kv => kv.1 == k)).map (fun kv => kv.2)).getD 0

/-- defaultdict(int) increment d[k] += 1: updates the existing entry in
    place, or appends the key at the end on first touch (Python dicts keep
    insertion order). -/
def dbump : List (String × Nat) → String → List (String × Nat)
  | [], k => [(k, 1)]
  | (k', v) :: rest, k =>
    if k' = k then (k', v + 1) :: rest else (k', v) :: dbump rest k

/-- Nested defaultdict increment: d[r][u] += 1. -/
def dbumpNest : List (String × List (String × Nat)) → String → String →
    List (String × List (String × Nat))
  | [], r, u => [(r, [(u, 1)])]
  | (k, m) :: rest, r, u =>
    if k = r then (k, dbump m u) :: rest else (k, m) :: dbumpNest rest r u

/-- Lookup in the nested substitution dict; a missing key is the empty map. -/
def dgetNest (d : List (String × List (String × Nat))) (k : String) :
    List (String × Nat) :=
  ((d.find? (fun kv => kv.1 == k)).map (fun kv => kv.2)).getD []

/-- One word_errors record (src/pronunciation_profile.py lines 25-31). -/
structure WordRec where
  count : Nat
  errors : Nat
  ref_phonemes : String
  user_phonemes_list : List String
  error_rate : ℚ
deriving DecidableEq

/-- The default word record produced by the word_errors defaultdict. -/
def WordRec.default : WordRec := ⟨0, 0, "", [], 0⟩

/-- UserPronunciationProfile state (src/pronunciation_profile.py lines
    12-39): error_counts and total_counts are defaultdict(int), word_errors
    maps a cleaned word to its record, phoneme_substitutions is a nested
    defaultdict(int). -/
structure UserPronunciationProfile where
  error_counts : List (String × Nat)
  total_counts : List (String × Nat)
  word_errors : List (String × WordRec)
  phoneme_substitutions : List (String × List (String × Nat))
deriving DecidableEq

/-- A freshly constructed profile (no file given, or file absent). -/
def UserPronunciationProfile.empty : UserPronunciationProfile := ⟨[], [], [], []⟩

/-- One iteration of the phoneme-level loop of update
    (src/pronunciation_profile.py lines 63-68). -/
def phonemeStep (p : UserPronunciationProfile) (ru : String × String) :
    UserPronunciationProfile :=
  if ru.1 ≠ ru.2 then
    { p with
      total_counts := dbump p.total_counts ru.1,
      error_counts := dbump p.error_counts ru.1,
      phoneme_substitutions := dbumpNest p.phoneme_substitutions ru.1 ru.2 }
  else { p with total_counts := dbump p.total_counts ru.1 }

/-- update(ref_phonemes, user_phonemes) on token lists, with words=None
    (src/pronunciation_profile.py lines 41-68; the root
    pronunciation_profile.py lines 8-15 runs the identical loop): zip the two
    lists and update the counters pairwise.  The word-level branch, entered
    only when words is provided, touches none of these counters. -/
def UserPronunciationProfile.update (p : UserPronunciationProfile)
    (ref usr : List String) : UserPronunciationProfile :=
  (ref.zip usr).foldl phonemeStep p

/-- weak_phonemes(threshold) (src/pronunciation_profile.py lines 108-116):
    keys of total_counts, in insertion order, whose total is positive and
    whose error/total ratio strictly exceeds the threshold. -/
def UserPronunciationProfile.weak_phonemes (p : UserPronunciationProfile)
    (threshold : ℚ) : List String :=
  (p.total_counts.filter (fun kv =>
    decide (0 < kv.2) &&
      decide (threshold < (dget p.error_counts kv.1 : ℚ) / (kv.2 : ℚ)))).map
    (fun kv => kv.1)

/-- One pass of the weighted_score loop (src/pronunciation_profile.py lines
    218-221); the accumulator is (score, weight_sum). -/
def weightedStep (weak : List String) (acc : ℚ × ℚ) (ru : String × String) :
    ℚ × ℚ :=
  (acc.1 + (if ru.1 ∈ weak then (2 : ℚ) else 1) * (if ru.1 = ru.2 then 1 else 0),
   acc.2 + (if ru.1 ∈ weak then (2 : ℚ) else 1))

/-- The final statement of weighted_score in the full profile
    (src/pronunciation_profile.py line 223): score / weight_sum if the
    weight sum is positive, else 0.0. -/
def wsFinal (acc : ℚ × ℚ) : ℚ := if 0 < acc.2 then acc.1 / acc.2 else 0

/-- weighted_score (src/pronunciation_profile.py lines 209-223) on token
    lists: weight 2.0 for currently weak reference tokens, else 1.0; returns
    score/weight_sum, and 0.0 when the weight sum is 0. -/
def UserPronunciationProfile.weighted_score (p : UserPronunciationProfile)
    (ref usr : List String) : ℚ :=
  wsFinal ((ref.zip usr).foldl (weightedStep (p.weak_phonemes (2 / 5))) (0, 0))

/-- The simplified profile at the repository root (pronunciation_profile.py
    lines 3-23): only the two phoneme counters. -/
structure RootProfile where
  error_counts : List (String × Nat)
  total_counts : List (String × Nat)
deriving DecidableEq

def RootProfile.empty : RootProfile := ⟨[], []⟩

/-- One iteration of the update loop of the root profile (root
    pronunciation_profile.py lines 12-15). -/
def rootStep (p : RootProfile) (ru : String × String) : RootProfile :=
  if ru.1 ≠ ru.2 then
    { p with
      total_counts := dbump p.total_counts ru.1,
      error_counts := dbump p.error_counts ru.1 }
  else { p with total_counts := dbump p.total_counts ru.1 }

/-- update of the root-level profile (root pronunciation_profile.py
    lines 8-15). -/
def RootProfile.update (p : RootProfile) (ref usr : List String) : RootProfile :=
  (ref.zip usr).foldl rootStep p

/-- weak_phonemes of the root-level profile (root pronunciation_profile.py
    lines 17-23): no positivity guard appears in this variant (every tracked
    total is at least 1 in every state this variant can reach). -/
def RootProfile.weak_phonemes (p : RootProfile) (threshold : ℚ) : List String :=
  (p.total_counts.filter (fun kv =>
    decide (threshold < (dget p.error_counts kv.1 : ℚ) / (kv.2 : ℚ)))).map
    (fun kv => kv.1)

/-- The final statement of the root-level weighted_score (root
    pronunciation_profile.py line 39): score / weight_sum with no guard, so
    a zero weight sum raises ZeroDivisionError in Python, modelled as none. -/
def rootWsFinal (acc : ℚ × ℚ) : Option ℚ :=
  if acc.2 = 0 then none else some (acc.1 / acc.2)

/-- weighted_score of the root-level profile (root pronunciation_profile.py
    lines 25-39): the identical loop, but with the unguarded final division. -/
def RootProfile.weighted_score (p : RootProfile) (ref usr : List String) :
    Option ℚ :=
  rootWsFinal ((ref.zip usr).foldl (weightedStep (p.weak_phonemes (2 / 5))) (0, 0))

/-- The sum of the counts in the substitution map of token t. -/
def substSum (p : UserPronunciationProfile) (t : String) : Nat :=
  ((dgetNest p.phoneme_substitutions t).map (fun kv => kv.2)).sum

/-- Profiles reachable from a freshly constructed profile by update calls. -/
inductive Reachable : UserPronunciationProfile → Prop
  | empty : Reachable UserPronunciationProfile.empty
  | update (p : UserPronunciationProfile) (ref usr : List String) :
      Reachable p → Reachable (p.update ref usr)

/-- The profile used to instantiate the reachability hypothesis. -/
def oneUpdateProfile : UserPronunciationProfile :=
  UserPronunciationProfile.empty.update ["a"] ["b"]

/-- The concrete profile of the spec scenario: five updates of
    (["k","æ","t"], ["k","b","t"]) starting from a fresh profile. -/
def scenarioProfile : UserPronunciationProfile :=
  (((((UserPronunciationProfile.empty.update ["k", "æ", "t"] ["k", "b", "t"]).update
    ["k", "æ", "t"] ["k", "b", "t"]).update ["k", "æ", "t"] ["k", "b", "t"]).update
    ["k", "æ", "t"] ["k", "b", "t"]).update ["k", "æ", "t"] ["k", "b", "t"])

/-- The profile used in the C8 counterexample: one update that makes "a",
    "b" and "c" all weak (error rate 1 each). -/
def C8_profile : UserPronunciationProfile :=
  UserPronunciationProfile.empty.update ["a", "b", "c"] ["x", "y", "z"]

/-- The outcome of the input gate of audio_to_phonemes. -/
inductive ExtractOutcome where
  | invalidInput : ExtractOutcome
  | emptyObserved : ExtractOutcome
  | proceeds (refTokens : List String) : ExtractOutcome
deriving DecidableEq

/-- The validation and reference-phonemization gate of audio_to_phonemes
    (src/user_phonemes.py lines 154-188): raise ValueError exactly when
    reference_text is None or strips to the empty string; then, with the
    external phonemizer's output for the reference text, return the empty
    observed sequence when that output is empty or splits into zero tokens,
    and otherwise proceed with the reference token list.  Audio loading and
    the phonemizer are external collaborators, so the phonemizer output is a
    parameter. -/
def audio_to_phonemes_gate (referenceText : Option String)
    (phonemizerOut : String) : ExtractOutcome :=
  match referenceText with
  | none => ExtractOutcome.invalidInput
  | some t =>
    if pyBlank t then ExtractOutcome.invalidInput
    else if phonemizerOut = "" then ExtractOutcome.emptyObserved
    else if pySplit phonemizerOut = [] then ExtractOutcome.emptyObserved
    else ExtractOutcome.proceeds (pySplit phonemizerOut)

/-- librosa frame count at hop length 512 with centering: 1 + len // 512
    frames; frame i sits at sample 512 * i. -/
def numFrames (audioLen : Nat) : Nat := 1 + audioLen / 512

/-- The candidate boundary positions that audio_to_phonemes examines
    (src/user_phonemes.py lines 208-218): frames 1 .. numFrames - 2, each at
    sample position 512 * i; whether the combined acoustic change at frame i
    exceeds the 1.5 threshold is a property of the float feature streams,
    abstracted by the oracle isCand. -/
def framePositions (audioLen : Nat) (isCand : Nat → Bool) : List Nat :=
  ((List.range (numFrames audioLen)).filter
    (fun i => decide (1 ≤ i) && decide (i + 1 < numFrames audioLen) &&
      isCand i)).map (fun i => 512 * i)

/-- The minimum-gap filter on candidates (src/user_phonemes.py line 217): a
    position is appended only when it lies more than
    sample_rate * 0.05 = 800 samples past the last accepted boundary. -/
def acceptCands : Nat → List Nat → List Nat
  | _, [] => []
  | last, q :: qs =>
    if last + 800 < q then q :: acceptCands q qs else acceptCands last qs

/-- boundaries = [0] ++ accepted candidates ++ [len(audio)]
    (src/user_phonemes.py lines 197, 208-220). -/
def initialBoundaries (audioLen : Nat) (positions : List Nat) : List Nat :=
  0 :: (acceptCands 0 positions ++ [audioLen])

/-- Adjacent boundary separations. -/
def gapsOf (bs : List Nat) : List Nat := (bs.zip bs.tail).map (fun q => q.2 - q.1)

/-- First index of the minimum separation, mirroring min_dist = inf and the
    strict < update (src/user_phonemes.py lines 225-231). -/
def argminAux : List Nat → Nat → Option Nat → Nat → Nat
  | [], _, _, bi => bi
  | g :: gs, i, none, _ => argminAux gs (i + 1) (some g) i
  | g :: gs, i, some b, bi =>
    if g < b then argminAux gs (i + 1) (some g) i
    else argminAux gs (i + 1) (some b) bi

def argminGaps (gs : List Nat) : Nat := argminAux gs 0 none 0

/-- First index of the maximum separation, mirroring max_dist = 0 and the
    strict > update (src/user_phonemes.py lines 234-241). -/
def argmaxAux : List Nat → Nat → Nat → Nat → Nat
  | [], _, _, bi => bi
  | g :: gs, i, b, bi =>
    if b < g then argmaxAux gs (i + 1) g i else argmaxAux gs (i + 1) b bi

def argmaxGaps (gs : List Nat) : Nat := argmaxAux gs 0 0 0

/-- The merge loop (src/user_phonemes.py lines 223-232): while there are
    more than target_count + 1 boundaries, pop the later endpoint of the
    closest adjacent pair; each iteration removes one element, so fuel equal
    to the list length always suffices. -/
def mergeLoop (target : Nat) : Nat → List Nat → List Nat
  | 0, bs => bs
  | fuel + 1, bs =>
    if target + 1 < bs.length then
      mergeLoop target fuel (bs.eraseIdx (argminGaps (gapsOf bs) + 1))
    else bs

/-- The split loop (src/user_phonemes.py lines 233-243): while there are
    fewer than target_count + 1 boundaries, insert the midpoint of the
    widest interval after its left endpoint; target_count + 1 iterations
    always suffice. -/
def splitLoop (target : Nat) : Nat → List Nat → List Nat
  | 0, bs => bs
  | fuel + 1, bs =>
    if bs.length < target + 1 then
      splitLoop target fuel
        (List.insertIdx (argmaxGaps (gapsOf bs) + 1)
          ((bs.getD (argmaxGaps (gapsOf bs)) 0 +
            bs.getD (argmaxGaps (gapsOf bs) + 1) 0) / 2) bs)
    else bs

/-- Boundary-count reconciliation (src/user_phonemes.py lines 222-243). -/
def reconcile (target : Nat) (bs : List Nat) : List Nat :=
  splitLoop target (target + 1) (mergeLoop target bs.length bs)

/-- The boundary list audio_to_phonemes builds for a buffer of audioLen
    samples and the given target phoneme count, with the float threshold
    test abstracted by the oracle isCand. -/
def audioBoundaries (audioLen target : Nat) (isCand : Nat → Bool) : List Nat :=
  reconcile target (initialBoundaries audioLen (framePositions audioLen isCand))

/-- The JSON values relevant to the profile document (the shapes json.load
    can hand back for it). -/
inductive JVal where
  | jnum (q : ℚ)
  | jstr (s : String)
  | jarr (xs : List JVal)
  | jobj (fields : List (String × JVal))

/-- profile_data.get(key, default) on a parsed JSON object. -/
def jGet (fields : List (String × JVal)) (k : String) (d : JVal) : JVal :=
  ((fields.find? (fun kv => kv.1 == k)).map (fun kv => kv.2)).getD d

/-- Reading a counts dict during load: defaultdict(int, x) succeeds when x
    is a JSON object of (non-negative integer) numbers; any other shape
    raises in Python, modelled as none.  (Python would store ill-typed dict
    values as-is and fail only when they are used; the documents the
    theorems below touch are well-typed, where both behaviours agree.) -/
def parseCountsList : List (String × JVal) → Option (List (String × Nat))
  | [] => some []
  | (k, JVal.jnum q) :: rest =>
    if q.den = 1 ∧ 0 ≤ q.num then
      match parseCountsList rest with
      | some d => some ((k, q.num.toNat) :: d)
      | none => none
    else none
  | _ => none

def parseCounts (j : JVal) : Option (List (String × Nat)) :=
  match j with
  | JVal.jobj fields => parseCountsList fields
  | _ => none

def parseStrList : List JVal → Option (List String)
  | [] => some []
  | JVal.jstr u :: rest =>
    match parseStrList rest with
    | some l => some (u :: l)
    | none => none
  | _ => none

/-- Reading one word_errors record during load
    (src/pronunciation_profile.py lines 267-274): data.get with a default
    per field; a non-object entry raises AttributeError (modelled none). -/
def parseWordRec (j : JVal) : Option WordRec :=
  match j with
  | JVal.jobj fields =>
    match jGet fields "count" (JVal.jnum 0), jGet fields "errors" (JVal.jnum 0),
        jGet fields "ref_phonemes" (JVal.jstr ""),
        jGet fields "user_phonemes_list" (JVal.jarr []),
        jGet fields "error_rate" (JVal.jnum 0) with
    | JVal.jnum qc, JVal.jnum qe, JVal.jstr rp, JVal.jarr ul, JVal.jnum er =>
      if qc.den = 1 ∧ 0 ≤ qc.num ∧ qe.den = 1 ∧ 0 ≤ qe.num then
        match parseStrList ul with
        | some us => some ⟨qc.num.toNat, qe.num.toNat, rp, us, er⟩
        | none => none
      else none
    | _, _, _, _, _ => none
  | _ => none

/-- Python dict assignment d[k] = v: replace the entry in place, or append
    the key at the end on first touch. -/
def wput : List (String × WordRec) → String → WordRec → List (String × WordRec)
  | [], k, v => [(k, v)]
  | (k', v') :: rest, k, v =>
    if k' = k then (k', v) :: rest else (k', v') :: wput rest k v

def sput : List (String × List (String × Nat)) → String → List (String × Nat) →
    List (String × List (String × Nat))
  | [], k, v => [(k, v)]
  | (k', v') :: rest, k, v =>
    if k' = k then (k', v) :: rest else (k', v') :: sput rest k v

/-- The word_errors loop of load (src/pronunciation_profile.py lines
    266-274): entries processed before a failure stay in the profile. -/
def loadWords : UserPronunciationProfile → List (String × JVal) →
    UserPronunciationProfile × Bool
  | p, [] => (p, false)
  | p, (w, d) :: rest =>
    match parseWordRec d with
    | none => (p, true)
    | some r => loadWords { p with word_errors := wput p.word_errors w r } rest

/-- The phoneme_substitutions loop of load (lines 277-279). -/
def loadSubsts : UserPronunciationProfile → List (String × JVal) →
    UserPronunciationProfile × Bool
  | p, [] => (p, false)
  | p, (r, d) :: rest =>
    match parseCounts d with
    | none => (p, true)
    | some m =>
      loadSubsts { p with phoneme_substitutions := sput p.phoneme_substitutions r m }
        rest

/-- load after a successful json.load (src/pronunciation_profile.py lines
    260-281): the assignments run in order inside one try/except, so a
    failure keeps everything assigned before it; the Bool records whether
    the warning was printed (an exception was caught). -/
def loadFromDoc (p : UserPronunciationProfile) (j : JVal) :
    UserPronunciationProfile × Bool :=
  match j with
  | JVal.jobj fields =>
    match parseCounts (jGet fields "error_counts" (JVal.jobj [])) with
    | none => (p, true)
    | some ec =>
      match parseCounts (jGet fields "total_counts" (JVal.jobj [])) with
      | none => ({ p with error_counts := ec }, true)
      | some tc =>
        match jGet fields "word_errors" (JVal.jobj []) with
        | JVal.jobj wfs =>
          match loadWords { p with error_counts := ec, total_counts := tc } wfs with
          | (p2, true) => (p2, true)
          | (p2, false) =>
            match jGet fields "phoneme_substitutions" (JVal.jobj []) with
            | JVal.jobj sfs => loadSubsts p2 sfs
            | _ => (p2, true)
        | _ => ({ p with error_counts := ec, total_counts := tc }, true)
  | _ => (p, true)

/-- What load finds at the profile path. -/
inductive FileContents where
  | missing : FileContents
  | notJson : FileContents
  | parsed (j : JVal) : FileContents

/-- load (src/pronunciation_profile.py lines 252-281): returns immediately
    on a missing file; a json.load failure is caught before any field is
    assigned; otherwise the document is read field by field. -/
def UserPronunciationProfile.load (p : UserPronunciationProfile)
    (fc : FileContents) : UserPronunciationProfile × Bool :=
  match fc with
  | FileContents.missing => (p, false)
  | FileContents.notJson => (p, true)
  | FileContents.parsed j => loadFromDoc p j

/-- The last-10 truncation applied to user_phonemes_list on save
    (src/pronunciation_profile.py line 241). -/
def takeLast10 (l : List String) : List String := l.drop (l.length - 10)

/-- One saved word_errors record (lines 237-243). -/
def saveWordRec (r : WordRec) : JVal :=
  JVal.jobj
    [("count", JVal.jnum r.count),
     ("errors", JVal.jnum r.errors),
     ("ref_phonemes", JVal.jstr r.ref_phonemes),
     ("user_phonemes_list", JVal.jarr ((takeLast10 r.user_phonemes_list).map JVal.jstr)),
     ("error_rate", JVal.jnum r.error_rate)]

/-- save (src/pronunciation_profile.py lines 225-250): the JSON document
    written for a profile. -/
def UserPronunciationProfile.save (p : UserPronunciationProfile) : JVal :=
  JVal.jobj
    [("error_counts",
      JVal.jobj (p.error_counts.map (fun kv => (kv.1, JVal.jnum kv.2)))),
     ("total_counts",
      JVal.jobj (p.total_counts.map (fun kv => (kv.1, JVal.jnum kv.2)))),
     ("word_errors",
      JVal.jobj (p.word_errors.map (fun kv => (kv.1, saveWordRec kv.2)))),
     ("phoneme_substitutions",
      JVal.jobj (p.phoneme_substitutions.map (fun kv =>
        (kv.1, JVal.jobj (kv.2.map (fun uv => (uv.1, JVal.jnum uv.2)))))))]

/-- Lookup in word_errors with the defaultdict default record. -/
def wget (d : List (String × WordRec)) (k : String) : WordRec :=
  ((d.find? (fun kv => kv.1 == k)).map (fun kv => kv.2)).getD WordRec.default

/-- What load reconstructs for a saved word record: everything identical
    except user_phonemes_list, which save truncated to its last 10 items. -/
def truncRec (r : WordRec) : WordRec :=
  { r with user_phonemes_list := takeLast10 r.user_phonemes_list }

/-- The profile used to instantiate C5's hypothesis. -/
def C5_profile : UserPronunciationProfile :=
  { error_counts := [("æ", 1)], total_counts := [("æ", 2), ("k", 2)],
    word_errors := [("cat", ⟨2, 1, "k æ t", ["k b t", "k æ t"], 1 / 2⟩)],
    phoneme_substitutions := [("æ", [("b", 1)])] }

/-- The corrupt document of the C6 counterexample: a valid error_counts
    section followed by a word_errors section that is a string, on which the
    load loop raises AttributeError after error_counts was already
    assigned. -/
def C6_badDoc : JVal :=
  JVal.jobj [("error_counts", JVal.jobj [("a", JVal.jnum 3)]),
             ("word_errors", JVal.jstr "bad")]

theorem levenshtein_spec_nil_right (xs : List String) : levenshtein_spec xs [] = xs.length := by
  cases xs <;> simp [levenshtein_spec]

set_option maxHeartbeats 1600000 in
/-- The Levenshtein recurrence also holds when both sequences are extended on
    the right: this is what lets the row DP (which consumes tokens left to
    right) be related to the head-recursive definition. -/
theorem levenshtein_spec_append_right : ∀ (xs ys : List String) (a b : String),
    levenshtein_spec (xs ++ [a]) (ys ++ [b]) =
      min (levenshtein_spec xs (ys ++ [b]) + 1)
        (min (levenshtein_spec (xs ++ [a]) ys + 1)
          (levenshtein_spec xs ys + (if a = b then 0 else 1))) := by
  have main : ∀ (n : Nat) (xs ys : List String) (a b : String),
      xs.length + ys.length ≤ n →
      levenshtein_spec (xs ++ [a]) (ys ++ [b]) =
        min (levenshtein_spec xs (ys ++ [b]) + 1)
          (min (levenshtein_spec (xs ++ [a]) ys + 1)
            (levenshtein_spec xs ys + (if a = b then 0 else 1))) := by
    intro n
    induction n with
    | zero =>
      intro xs ys a b h
      cases xs with
      | nil =>
        cases ys with
        | nil => simp [levenshtein_spec]
        | cons y ys' => simp only [List.length_cons, List.length_nil] at h; omega
      | cons x xs' => simp only [List.length_cons] at h; omega
    | succ n ih =>
      intro xs ys a b h
      cases xs with
      | nil =>
        cases ys with
        | nil => simp [levenshtein_spec]
        | cons y ys' =>
          have h1 := ih [] ys' a b
            (by simp only [List.length_cons, List.length_nil] at h ⊢; omega)
          simp only [List.nil_append, List.cons_append] at h1 ⊢
          simp only [levenshtein_spec]
          rw [h1]
          simp only [levenshtein_spec, List.length_append, List.length_cons, List.length_nil]
          omega
      | cons x xs' =>
        cases ys with
        | nil =>
          have h1 := ih xs' [] a b
            (by simp only [List.length_cons, List.length_nil] at h ⊢; omega)
          simp only [List.nil_append, List.append_nil, List.cons_append] at h1 ⊢
          simp only [levenshtein_spec]
          rw [h1]
          simp only [levenshtein_spec_nil_right, levenshtein_spec, List.length_append,
            List.length_cons, List.length_nil]
          omega
        | cons y ys' =>
          have h1 := ih xs' (y :: ys') a b
            (by simp only [List.length_cons] at h ⊢; omega)
          have h2 := ih (x :: xs') ys' a b
            (by simp only [List.length_cons] at h ⊢; omega)
          have h3 := ih xs' ys' a b
            (by simp only [List.length_cons] at h ⊢; omega)
          simp only [List.cons_append] at h1 h2 h3 ⊢
          simp only [levenshtein_spec]
          rw [h1, h2, h3]
          apply le_antisymm <;> simp only [le_min_iff, min_le_iff] <;> omega
  intro xs ys a b
  exact main (xs.length + ys.length) xs ys a b le_rfl

/-- Edit distance is symmetric. -/
theorem levenshtein_spec_comm : ∀ (xs ys : List String),
    levenshtein_spec xs ys = levenshtein_spec ys xs := by
  have main : ∀ (n : Nat) (xs ys : List String), xs.length + ys.length ≤ n →
      levenshtein_spec xs ys = levenshtein_spec ys xs := by
    intro n
    induction n with
    | zero =>
      intro xs ys h
      cases xs with
      | nil =>
        cases ys with
        | nil => rfl
        | cons y ys' => simp only [List.length_cons, List.length_nil] at h; omega
      | cons x xs' => simp only [List.length_cons] at h; omega
    | succ n ih =>
      intro xs ys h
      cases xs with
      | nil => simp [levenshtein_spec, levenshtein_spec_nil_right]
      | cons x xs' =>
        cases ys with
        | nil => simp [levenshtein_spec, levenshtein_spec_nil_right]
        | cons y ys' =>
          have h1 := ih xs' (y :: ys') (by simp only [List.length_cons] at h ⊢; omega)
          have h2 := ih (x :: xs') ys' (by simp only [List.length_cons] at h ⊢; omega)
          have h3 := ih xs' ys' (by simp only [List.length_cons] at h ⊢; omega)
          have hc : (if x = y then (0 : Nat) else 1) = (if y = x then 0 else 1) := by
            by_cases hxy : x = y
            · simp [hxy]
            · have hyx : ¬ y = x := fun h' => hxy h'.symm
              simp [hxy, hyx]
          simp only [levenshtein_spec]
          rw [h1, h2, h3, hc]
          omega
  intro xs ys
  exact main (xs.length + ys.length) xs ys le_rfl

/-- Edit distance is invariant under reversing both sequences. -/
theorem levenshtein_spec_reverse : ∀ (xs ys : List String),
    levenshtein_spec xs.reverse ys.reverse = levenshtein_spec xs ys := by
  have main : ∀ (n : Nat) (xs ys : List String), xs.length + ys.length ≤ n →
      levenshtein_spec xs.reverse ys.reverse = levenshtein_spec xs ys := by
    intro n
    induction n with
    | zero =>
      intro xs ys h
      cases xs with
      | nil =>
        cases ys with
        | nil => rfl
        | cons y ys' => simp only [List.length_cons, List.length_nil] at h; omega
      | cons x xs' => simp only [List.length_cons] at h; omega
    | succ n ih =>
      intro xs ys h
      cases xs with
      | nil => simp [levenshtein_spec]
      | cons x xs' =>
        cases ys with
        | nil => simp [levenshtein_spec_nil_right, levenshtein_spec]
        | cons y ys' =>
          have h1 := ih xs' (y :: ys') (by simp only [List.length_cons] at h ⊢; omega)
          have h2 := ih (x :: xs') ys' (by simp only [List.length_cons] at h ⊢; omega)
          have h3 := ih xs' ys' (by simp only [List.length_cons] at h ⊢; omega)
          simp only [List.reverse_cons] at h1 h2 h3 ⊢
          rw [levenshtein_spec_append_right, h1, h2, h3]
          have hr : levenshtein_spec (x :: xs') (y :: ys') =
              min (levenshtein_spec xs' (y :: ys') + 1)
                (min (levenshtein_spec (x :: xs') ys' + 1)
                  (levenshtein_spec xs' ys' + (if x = y then 0 else 1))) := by
            simp only [levenshtein_spec]
          rw [hr]
  intro xs ys
  exact main (xs.length + ys.length) xs ys le_rfl

theorem rowSpec_head (u v ys_arg : List String) :
    rowSpec u v ys_arg = levenshtein_spec u v :: (rowSpec u v ys_arg).tail := by
  cases ys_arg <;> simp [rowSpec]

theorem levRow_spec (c1 : String) (u : List String) :
    ∀ (ys v : List String),
      levRow c1 ys (rowSpec u v ys) (levenshtein_spec (c1 :: u) v)
        = (rowSpec (c1 :: u) v ys).tail := by
  intro ys
  induction ys with
  | nil => intro v; simp [rowSpec, levRow]
  | cons c2 cs ih =>
    intro v
    have hcell : levenshtein_spec (c1 :: u) (c2 :: v) =
        min (levenshtein_spec u (c2 :: v) + 1)
          (min (levenshtein_spec (c1 :: u) v + 1)
            (levenshtein_spec u v + (if c1 = c2 then 0 else 1))) := by
      simp only [levenshtein_spec]
    cases cs with
    | nil =>
      simp only [rowSpec, levRow]
      rw [← hcell]
      rfl
    | cons c3 cs' =>
      simp only [rowSpec, levRow]
      rw [← hcell]
      have hrec := ih (c2 :: v)
      simp only [rowSpec] at hrec
      rw [hrec]
      simp [rowSpec]

theorem levRows_spec (s2 : List String) :
    ∀ (cs u : List String),
      levRows s2 cs u.length (rowSpec u [] s2)
        = rowSpec (cs.reverse ++ u) [] s2 := by
  intro cs
  induction cs with
  | nil => intro u; simp [levRows]
  | cons c1 cs' ih =>
    intro u
    simp only [levRows]
    have hlen : u.length + 1 = levenshtein_spec (c1 :: u) [] := by
      rw [levenshtein_spec_nil_right]
      simp
    rw [hlen, levRow_spec c1 u s2 [], ← rowSpec_head]
    have hmain := ih (c1 :: u)
    simp only [List.length_cons] at hmain
    rw [hlen] at hmain
    rw [hmain]
    simp [List.reverse_cons, List.append_assoc]

theorem rowSpec_nil_left : ∀ (ys_arg v : List String),
    rowSpec [] v ys_arg = List.range' v.length (ys_arg.length + 1) := by
  intro ys_arg
  induction ys_arg with
  | nil => intro v; simp [rowSpec, levenshtein_spec, List.range']
  | cons c cs ih =>
    intro v
    simp only [rowSpec, List.length_cons]
    rw [ih (c :: v)]
    simp [levenshtein_spec, List.range']

theorem rowSpec_getLast? (u : List String) : ∀ (ys_arg v : List String),
    (rowSpec u v ys_arg).getLast? = some (levenshtein_spec u (ys_arg.reverse ++ v)) := by
  intro ys_arg
  induction ys_arg with
  | nil => intro v; simp [rowSpec]
  | cons c cs ih =>
    intro v
    cases cs with
    | nil => simp [rowSpec]
    | cons c2 cs' =>
      simp only [rowSpec]
      rw [List.getLast?_cons_cons]
      have hrec := ih (c :: v)
      simp only [rowSpec] at hrec
      rw [hrec]
      simp [List.reverse_cons, List.append_assoc]

/-- The row DP of aligner.py computes exactly the specification edit
    distance. -/
theorem levenshtein_distance_core_eq (s1 s2 : List String) :
    levenshtein_distance_core s1 s2 = levenshtein_spec s1 s2 := by
  unfold levenshtein_distance_core
  by_cases h2 : s2.length = 0
  · have hs2 : s2 = [] := List.length_eq_zero.mp h2
    subst hs2
    simp [levenshtein_spec_nil_right]
  · simp only [if_neg h2]
    have hinit : List.range (s2.length + 1) = rowSpec [] [] s2 := by
      rw [rowSpec_nil_left]
      simp [List.range_eq_range']
    rw [hinit]
    have hmain := levRows_spec s2 s1 []
    simp only [List.length_nil, List.append_nil] at hmain
    rw [hmain]
    rw [List.getLastD_eq_getLast?, rowSpec_getLast? s1.reverse s2 []]
    simp [levenshtein_spec_reverse]

/-- _levenshtein_distance computes the specification edit distance. -/
theorem levenshtein_distance_eq (s1 s2 : List String) :
    levenshtein_distance s1 s2 = levenshtein_spec s1 s2 := by
  unfold levenshtein_distance
  by_cases h : s1.length < s2.length
  · simp only [if_pos h]
    rw [levenshtein_distance_core_eq, levenshtein_spec_comm]
  · simp only [if_neg h]
    exact levenshtein_distance_core_eq s1 s2

theorem levenshtein_spec_self : ∀ (xs : List String), levenshtein_spec xs xs = 0 := by
  intro xs
  induction xs with
  | nil => simp [levenshtein_spec]
  | cons x xs' ih =>
    simp only [levenshtein_spec]
    rw [ih]
    simp

theorem levenshtein_spec_le_max : ∀ (xs ys : List String),
    levenshtein_spec xs ys ≤ max xs.length ys.length := by
  have main : ∀ (n : Nat) (xs ys : List String), xs.length + ys.length ≤ n →
      levenshtein_spec xs ys ≤ max xs.length ys.length := by
    intro n
    induction n with
    | zero =>
      intro xs ys h
      cases xs with
      | nil =>
        cases ys with
        | nil => simp [levenshtein_spec]
        | cons y ys' => simp only [List.length_cons, List.length_nil] at h; omega
      | cons x xs' => simp only [List.length_cons] at h; omega
    | succ n ih =>
      intro xs ys h
      cases xs with
      | nil => simp [levenshtein_spec]
      | cons x xs' =>
        cases ys with
        | nil => simp [levenshtein_spec_nil_right]
        | cons y ys' =>
          have h3 := ih xs' ys' (by simp only [List.length_cons] at h ⊢; omega)
          have hc : (if x = y then (0 : Nat) else 1) ≤ 1 := by split <;> omega
          simp only [levenshtein_spec, List.length_cons]
          omega
  intro xs ys
  exact main (xs.length + ys.length) xs ys le_rfl

theorem phoneme_accuracy_formula (reference predicted : List String) :
    phoneme_accuracy reference predicted =
      1 - (levenshtein_spec reference predicted : ℚ) /
        ((max reference.length predicted.length : Nat) : ℚ) := by
  unfold phoneme_accuracy
  by_cases h : max reference.length predicted.length = 0
  · have hr : reference = [] := List.length_eq_zero.mp (by omega)
    have hp : predicted = [] := List.length_eq_zero.mp (by omega)
    subst hr; subst hp
    simp [levenshtein_spec]
  · rw [if_neg h, levenshtein_distance_eq]

/-- C2: phoneme_accuracy(reference, predicted) equals
    1 - d / max(len(reference), len(predicted)) with d the unit-cost
    Levenshtein distance over whole tokens; it lies in [0,1]; accuracy of any
    sequence with itself is 1.0; accuracy of two empty sequences is 1.0; and
    accuracy is 0.0 when exactly one sequence is empty. -/
theorem C2_phoneme_accuracy_correct (reference predicted : List String) :
    phoneme_accuracy reference predicted =
        1 - (levenshtein_spec reference predicted : ℚ) /
          ((max reference.length predicted.length : Nat) : ℚ)
      ∧ 0 ≤ phoneme_accuracy reference predicted
      ∧ phoneme_accuracy reference predicted ≤ 1
      ∧ phoneme_accuracy reference reference = 1
      ∧ phoneme_accuracy [] [] = 1
      ∧ (reference = [] → predicted ≠ [] → phoneme_accuracy reference predicted = 0)
      ∧ (predicted = [] → reference ≠ [] → phoneme_accuracy reference predicted = 0) := by
  have hbounds : ∀ (r q : List String),
      0 ≤ phoneme_accuracy r q ∧ phoneme_accuracy r q ≤ 1 := by
    intro r q
    rw [phoneme_accuracy_formula]
    by_cases h : max r.length q.length = 0
    · rw [h]
      norm_num
    · have hpos : (0 : ℚ) < ((max r.length q.length : Nat) : ℚ) := by
        have : 0 < max r.length q.length := Nat.pos_of_ne_zero h
        exact_mod_cast this
      have hle : (levenshtein_spec r q : ℚ) ≤ ((max r.length q.length : Nat) : ℚ) := by
        exact_mod_cast levenshtein_spec_le_max r q
      have h1 : (levenshtein_spec r q : ℚ) / ((max r.length q.length : Nat) : ℚ) ≤ 1 :=
        (div_le_one hpos).mpr hle
      have h2 : (0 : ℚ) ≤ (levenshtein_spec r q : ℚ) / ((max r.length q.length : Nat) : ℚ) :=
        div_nonneg (by positivity) hpos.le
      constructor <;> linarith
  refine ⟨phoneme_accuracy_formula reference predicted,
    (hbounds reference predicted).1, (hbounds reference predicted).2, ?_, ?_, ?_, ?_⟩
  · rw [phoneme_accuracy_formula, levenshtein_spec_self]
    simp
  · simp [phoneme_accuracy]
  · intro hr hq
    subst hr
    rw [phoneme_accuracy_formula]
    have hlen : levenshtein_spec [] predicted = predicted.length := by
      simp [levenshtein_spec]
    have hq0 : predicted.length ≠ 0 := fun h0 => hq (List.length_eq_zero.mp h0)
    rw [hlen]
    simp only [List.length_nil, Nat.zero_max]
    rw [div_self (by exact_mod_cast hq0)]
    norm_num
  · intro hq hr
    subst hq
    rw [phoneme_accuracy_formula]
    have hlen : levenshtein_spec reference [] = reference.length :=
      levenshtein_spec_nil_right reference
    have hr0 : reference.length ≠ 0 := fun h0 => hr (List.length_eq_zero.mp h0)
    rw [hlen]
    simp only [List.length_nil, Nat.max_zero]
    rw [div_self (by exact_mod_cast hr0)]
    norm_num

theorem C2_phoneme_accuracy_correct_witness :
    phoneme_accuracy ([] : List String) ["a"] = 0
      ∧ phoneme_accuracy ["a"] ([] : List String) = 0 :=
  ⟨(C2_phoneme_accuracy_correct [] ["a"]).2.2.2.2.2.1 rfl (by simp),
   (C2_phoneme_accuracy_correct ["a"] []).2.2.2.2.2.2 rfl (by simp)⟩

theorem dget_nil (t : String) : dget [] t = 0 := rfl

theorem dget_cons (k : String) (v : Nat) (rest : List (String × Nat)) (t : String) :
    dget ((k, v) :: rest) t = if k = t then v else dget rest t := by
  by_cases h : k = t
  · subst h; simp [dget, List.find?]
  · have hb : (k == t) = false := by simp [h]
    simp [dget, List.find?, hb, h]

theorem dget_dbump (d : List (String × Nat)) (k t : String) :
    dget (dbump d k) t = dget d t + (if k = t then 1 else 0) := by
  induction d with
  | nil =>
    by_cases h : k = t <;> simp [dbump, dget_cons, dget_nil, h]
  | cons head rest ih =>
    obtain ⟨k', v⟩ := head
    by_cases hk : k' = k
    · subst hk
      simp only [dbump, if_pos rfl]
      by_cases ht : k' = t <;> simp [dget_cons, ht]
    · simp only [dbump, if_neg hk]
      by_cases ht : k' = t
      · have hkt : ¬ k = t := fun h => hk (ht.trans h.symm)
        rw [dget_cons, dget_cons, if_pos ht, if_pos ht, if_neg hkt]
        simp
      · rw [dget_cons, dget_cons, if_neg ht, if_neg ht, ih]

theorem dgetNest_nil (t : String) : dgetNest [] t = [] := rfl

theorem dgetNest_cons (k : String) (m : List (String × Nat))
    (rest : List (String × List (String × Nat))) (t : String) :
    dgetNest ((k, m) :: rest) t = if k = t then m else dgetNest rest t := by
  by_cases h : k = t
  · subst h; simp [dgetNest, List.find?]
  · have hb : (k == t) = false := by simp [h]
    simp [dgetNest, List.find?, hb, h]

theorem dgetNest_dbumpNest (d : List (String × List (String × Nat)))
    (r u t : String) :
    dgetNest (dbumpNest d r u) t =
      if r = t then dbump (dgetNest d t) u else dgetNest d t := by
  induction d with
  | nil =>
    by_cases h : r = t <;> simp [dbumpNest, dgetNest_cons, dgetNest_nil, h, dbump]
  | cons head rest ih =>
    obtain ⟨k, m⟩ := head
    by_cases hk : k = r
    · subst hk
      simp only [dbumpNest, if_pos rfl]
      by_cases ht : k = t <;> simp [dgetNest_cons, ht]
    · simp only [dbumpNest, if_neg hk]
      by_cases ht : k = t
      · have hrt : ¬ r = t := fun h => hk (ht.trans h.symm)
        rw [dgetNest_cons, dgetNest_cons, if_pos ht, if_pos ht, if_neg hrt]
      · rw [dgetNest_cons, dgetNest_cons, if_neg ht, if_neg ht, ih]

theorem zip_take_min : ∀ (xs ys : List String),
    (xs.take (min xs.length ys.length)).zip (ys.take (min xs.length ys.length)) =
      xs.zip ys := by
  intro xs
  induction xs with
  | nil => intro ys; simp
  | cons x xs' ih =>
    intro ys
    cases ys with
    | nil => simp
    | cons y ys' =>
      simp only [List.length_cons, Nat.succ_min_succ, List.take_succ_cons,
        List.zip_cons_cons]
      rw [ih ys']

theorem phonemeStep_total (p : UserPronunciationProfile) (ru : String × String) :
    (phonemeStep p ru).total_counts = dbump p.total_counts ru.1 := by
  unfold phonemeStep
  split <;> rfl

theorem phonemeStep_error (p : UserPronunciationProfile) (ru : String × String) :
    (phonemeStep p ru).error_counts =
      if ru.1 ≠ ru.2 then dbump p.error_counts ru.1 else p.error_counts := by
  unfold phonemeStep
  split <;> simp_all

theorem phonemeStep_subst (p : UserPronunciationProfile) (ru : String × String) :
    (phonemeStep p ru).phoneme_substitutions =
      if ru.1 ≠ ru.2 then dbumpNest p.phoneme_substitutions ru.1 ru.2
      else p.phoneme_substitutions := by
  unfold phonemeStep
  split <;> simp_all

theorem update_fold_total (l : List (String × String)) :
    ∀ (p : UserPronunciationProfile) (t : String),
      dget (l.foldl phonemeStep p).total_counts t =
        dget p.total_counts t + l.countP (fun ru => ru.1 == t) := by
  induction l with
  | nil => intro p t; simp
  | cons ru l ih =>
    intro p t
    rw [List.foldl_cons, ih, List.countP_cons, phonemeStep_total, dget_dbump]
    simp only [beq_iff_eq]
    omega

theorem update_fold_error (l : List (String × String)) :
    ∀ (p : UserPronunciationProfile) (t : String),
      dget (l.foldl phonemeStep p).error_counts t =
        dget p.error_counts t + l.countP (fun ru => ru.1 == t && ru.1 != ru.2) := by
  induction l with
  | nil => intro p t; simp
  | cons ru l ih =>
    intro p t
    rw [List.foldl_cons, ih, List.countP_cons, phonemeStep_error]
    by_cases h2 : ru.1 = ru.2
    · simp [h2]
    · rw [if_pos h2, dget_dbump]
      simp only [Bool.and_eq_true, beq_iff_eq, bne_iff_ne, ne_eq, h2,
        not_false_eq_true, and_true]
      omega

theorem update_fold_subst (l : List (String × String)) :
    ∀ (p : UserPronunciationProfile) (t u : String),
      dget (dgetNest (l.foldl phonemeStep p).phoneme_substitutions t) u =
        dget (dgetNest p.phoneme_substitutions t) u +
          l.countP (fun ru => ru.1 == t && ru.2 == u && ru.1 != ru.2) := by
  induction l with
  | nil => intro p t u; simp
  | cons ru l ih =>
    intro p t u
    rw [List.foldl_cons, ih, List.countP_cons, phonemeStep_subst]
    by_cases h2 : ru.1 = ru.2
    · simp [h2]
    · rw [if_pos h2, dgetNest_dbumpNest]
      by_cases ht : ru.1 = t
      · rw [if_pos ht, dget_dbump]
        have h2t : ¬ t = ru.2 := ht ▸ h2
        simp only [Bool.and_eq_true, beq_iff_eq, bne_iff_ne, ne_eq, ht, h2t,
          not_false_eq_true, and_true, true_and]
        omega
      · rw [if_neg ht]
        simp [ht]

/-- C3: update pairs the reference and observed sequences positionally up to
    the shorter length; each pair increments the reference token's total
    count; exactly the differing pairs also increment that token's error
    count and the (reference → observed) substitution counter; positions
    beyond the shorter length change nothing (the zip truncates). -/
theorem C3_update_pairwise (p : UserPronunciationProfile) (ref usr : List String) :
    (∀ t, dget (p.update ref usr).total_counts t =
        dget p.total_counts t + (ref.zip usr).countP (fun ru => ru.1 == t))
      ∧ (∀ t, dget (p.update ref usr).error_counts t =
        dget p.error_counts t +
          (ref.zip usr).countP (fun ru => ru.1 == t && ru.1 != ru.2))
      ∧ (∀ t u, dget (dgetNest (p.update ref usr).phoneme_substitutions t) u =
        dget (dgetNest p.phoneme_substitutions t) u +
          (ref.zip usr).countP (fun ru => ru.1 == t && ru.2 == u && ru.1 != ru.2))
      ∧ p.update ref usr =
          p.update (ref.take (min ref.length usr.length))
            (usr.take (min ref.length usr.length)) := by
  refine ⟨fun t => update_fold_total (ref.zip usr) p t,
    fun t => update_fold_error (ref.zip usr) p t,
    fun t u => update_fold_subst (ref.zip usr) p t u, ?_⟩
  unfold UserPronunciationProfile.update
  rw [zip_take_min]

theorem dbump_sum (d : List (String × Nat)) (k : String) :
    ((dbump d k).map (fun kv => kv.2)).sum = (d.map (fun kv => kv.2)).sum + 1 := by
  induction d with
  | nil => simp [dbump]
  | cons head rest ih =>
    obtain ⟨k', v⟩ := head
    by_cases hk : k' = k
    · simp [dbump, hk]
      omega
    · simp [dbump, hk, ih]
      omega

theorem dbump_keys_mem (d : List (String × Nat)) (k x : String) :
    x ∈ (dbump d k).map Prod.fst ↔ x ∈ d.map Prod.fst ∨ x = k := by
  induction d with
  | nil => simp [dbump]
  | cons head rest ih =>
    obtain ⟨k', v⟩ := head
    by_cases hk : k' = k
    · subst hk
      simp [dbump]
      tauto
    · simp [dbump, hk, ih]
      tauto

theorem dbump_keys_nodup (d : List (String × Nat)) (k : String)
    (h : (d.map Prod.fst).Nodup) : ((dbump d k).map Prod.fst).Nodup := by
  induction d with
  | nil => simp [dbump]
  | cons head rest ih =>
    obtain ⟨k', v⟩ := head
    simp only [List.map_cons, List.nodup_cons] at h
    by_cases hk : k' = k
    · subst hk
      simp only [dbump, eq_self_iff_true, if_true, List.map_cons, List.nodup_cons]
      exact ⟨h.1, h.2⟩
    · simp only [dbump, if_neg hk, List.map_cons, List.nodup_cons]
      refine ⟨?_, ih h.2⟩
      rw [dbump_keys_mem]
      rintro (hmem | heq)
      · exact h.1 hmem
      · exact hk heq

theorem nodup_dget (d : List (String × Nat))
    (h : (d.map Prod.fst).Nodup) : ∀ kv ∈ d, dget d kv.1 = kv.2 := by
  induction d with
  | nil => intro kv hkv; cases hkv
  | cons head rest ih =>
    obtain ⟨k0, v0⟩ := head
    simp only [List.map_cons, List.nodup_cons] at h
    intro kv hkv
    rcases List.mem_cons.mp hkv with heq | hmem
    · subst heq
      rw [dget_cons, if_pos rfl]
    · have hne : ¬ k0 = kv.1 := by
        intro he
        exact h.1 (he ▸ List.mem_map.mpr ⟨kv, hmem, rfl⟩)
      rw [dget_cons, if_neg hne]
      exact ih h.2 kv hmem

theorem substSum_step (p : UserPronunciationProfile) (ru : String × String)
    (t : String) :
    substSum (phonemeStep p ru) t =
      substSum p t + (if ru.1 = t ∧ ¬ ru.1 = ru.2 then 1 else 0) := by
  unfold substSum
  rw [phonemeStep_subst]
  by_cases h2 : ru.1 = ru.2
  · simp [h2]
  · rw [if_pos h2, dgetNest_dbumpNest]
    by_cases ht : ru.1 = t
    · rw [if_pos ht, dbump_sum, if_pos ⟨ht, h2⟩]
    · rw [if_neg ht]
      simp [ht]

theorem update_fold_substSum (l : List (String × String)) :
    ∀ (p : UserPronunciationProfile) (t : String),
      substSum (l.foldl phonemeStep p) t =
        substSum p t + l.countP (fun ru => ru.1 == t && ru.1 != ru.2) := by
  induction l with
  | nil => intro p t; simp
  | cons ru l ih =>
    intro p t
    rw [List.foldl_cons, ih, substSum_step, List.countP_cons]
    simp only [Bool.and_eq_true, beq_iff_eq, bne_iff_ne, ne_eq]
    omega

theorem update_fold_total_nodup (l : List (String × String)) :
    ∀ (p : UserPronunciationProfile),
      (p.total_counts.map Prod.fst).Nodup →
      ((l.foldl phonemeStep p).total_counts.map Prod.fst).Nodup := by
  induction l with
  | nil => intro p hp; exact hp
  | cons ru l ih =>
    intro p hp
    rw [List.foldl_cons]
    exact ih _ (by rw [phonemeStep_total]; exact dbump_keys_nodup _ _ hp)

theorem reachable_invariant (p : UserPronunciationProfile) (hp : Reachable p) :
    (∀ t, dget p.error_counts t ≤ dget p.total_counts t)
    ∧ (∀ t, substSum p t = dget p.error_counts t)
    ∧ (p.total_counts.map Prod.fst).Nodup := by
  induction hp with
  | empty =>
    refine ⟨fun t => le_rfl, fun t => rfl, ?_⟩
    simp [UserPronunciationProfile.empty]
  | update q ref usr hq ihq =>
    obtain ⟨ih1, ih2, ih3⟩ := ihq
    unfold UserPronunciationProfile.update
    refine ⟨?_, ?_, update_fold_total_nodup _ _ ih3⟩
    · intro t
      rw [update_fold_error, update_fold_total]
      have hmono : (ref.zip usr).countP (fun ru => ru.1 == t && ru.1 != ru.2) ≤
          (ref.zip usr).countP (fun ru => ru.1 == t) := by
        apply List.countP_mono_left
        intro ru hmem hru
        exact (Bool.and_eq_true _ _ |>.mp hru).1
      have := ih1 t
      omega
    · intro t
      rw [update_fold_substSum, update_fold_error, ih2]

/-- C10: starting from a fresh profile, after any finite sequence of update
    calls, every token's error count is at most its total count, the counts
    in its substitution map sum to its error count, and consequently every
    error rate that weak_phonemes computes from a tracked entry lies in
    [0, 1]. -/
theorem C10_profile_invariant (p : UserPronunciationProfile) (hp : Reachable p) :
    (∀ t, dget p.error_counts t ≤ dget p.total_counts t)
    ∧ (∀ t, substSum p t = dget p.error_counts t)
    ∧ (∀ kv ∈ p.total_counts, 0 < kv.2 →
        0 ≤ (dget p.error_counts kv.1 : ℚ) / (kv.2 : ℚ)
          ∧ (dget p.error_counts kv.1 : ℚ) / (kv.2 : ℚ) ≤ 1) := by
  obtain ⟨h1, h2, h3⟩ := reachable_invariant p hp
  refine ⟨h1, h2, ?_⟩
  intro kv hkv hpos
  have hval : dget p.total_counts kv.1 = kv.2 := nodup_dget _ h3 kv hkv
  have herr : dget p.error_counts kv.1 ≤ kv.2 := hval ▸ h1 kv.1
  have hposq : (0 : ℚ) < (kv.2 : ℚ) := by exact_mod_cast hpos
  constructor
  · exact div_nonneg (by positivity) hposq.le
  · rw [div_le_one hposq]
    exact_mod_cast herr

theorem C10_profile_invariant_witness :
    Reachable oneUpdateProfile
    ∧ ((∀ t, dget oneUpdateProfile.error_counts t ≤
          dget oneUpdateProfile.total_counts t)
      ∧ (∀ t, substSum oneUpdateProfile t = dget oneUpdateProfile.error_counts t)
      ∧ (∀ kv ∈ oneUpdateProfile.total_counts, 0 < kv.2 →
          0 ≤ (dget oneUpdateProfile.error_counts kv.1 : ℚ) / (kv.2 : ℚ)
            ∧ (dget oneUpdateProfile.error_counts kv.1 : ℚ) / (kv.2 : ℚ) ≤ 1)) :=
  ⟨Reachable.update _ _ _ Reachable.empty,
   C10_profile_invariant oneUpdateProfile
     (Reachable.update _ _ _ Reachable.empty)⟩

/-- C4 counterexample: the root-level weighted_score divides score by
    weight_sum with no guard, so on a fresh profile with two empty sequences
    the weight sum is 0 and Python raises ZeroDivisionError (modelled as
    none) rather than returning 0.0. -/
theorem C4_counterexample : RootProfile.empty.weighted_score [] [] = none := by
  simp [RootProfile.weighted_score, RootProfile.weak_phonemes, RootProfile.empty,
    rootWsFinal]

/-- C4 (amended): the full profile implementation's weighted_score
    (src/pronunciation_profile.py lines 209-223) never raises on well-formed
    empty inputs: with both sequences empty the weight sum is 0 and the
    guard returns 0.0.  The simplified root-level duplicate
    (pronunciation_profile.py lines 25-39) lacks the guard and raises
    ZeroDivisionError there instead. -/
theorem C4_weighted_score_empty (p : UserPronunciationProfile) :
    p.weighted_score [] [] = 0 := by
  simp [UserPronunciationProfile.weighted_score, wsFinal]

theorem weak_phonemes_mem (p : UserPronunciationProfile) (threshold : ℚ)
    (t : String) :
    t ∈ p.weak_phonemes threshold ↔
      ∃ kv, kv ∈ p.total_counts ∧ kv.1 = t ∧ 0 < kv.2 ∧
        threshold < (dget p.error_counts t : ℚ) / (kv.2 : ℚ) := by
  unfold UserPronunciationProfile.weak_phonemes
  simp only [List.mem_map, List.mem_filter, Bool.and_eq_true, decide_eq_true_eq]
  constructor
  · rintro ⟨kv, ⟨hmem, hpos, hrate⟩, hkt⟩
    exact ⟨kv, hmem, hkt, hpos, by rwa [hkt] at hrate⟩
  · rintro ⟨kv, hmem, hkt, hpos, hrate⟩
    exact ⟨kv, ⟨hmem, hpos, by rw [hkt]; exact hrate⟩, hkt⟩

/-- C9: weak_phonemes(threshold) returns exactly the tracked phoneme tokens
    whose error/total ratio strictly exceeds the threshold; and starting
    from an empty profile, after five updates of
    (["k","æ","t"], ["k","b","t"]), "æ" is in weak_phonemes(0.4) and its
    substitution map is exactly the single entry ("b", 5). -/
theorem C9_weak_phonemes_correct (p : UserPronunciationProfile) (threshold : ℚ)
    (t : String) :
    (t ∈ p.weak_phonemes threshold ↔
      ∃ kv, kv ∈ p.total_counts ∧ kv.1 = t ∧ 0 < kv.2 ∧
        threshold < (dget p.error_counts t : ℚ) / (kv.2 : ℚ))
    ∧ "æ" ∈ scenarioProfile.weak_phonemes (2 / 5)
    ∧ dgetNest scenarioProfile.phoneme_substitutions "æ" = [("b", 5)] := by
  refine ⟨weak_phonemes_mem p threshold t, ?_, by decide⟩
  rw [weak_phonemes_mem]
  refine ⟨("æ", 5), by decide, rfl, by decide, ?_⟩
  have h5 : dget scenarioProfile.error_counts "æ" = 5 := by decide
  rw [h5]
  norm_num

theorem C8_profile_weak : C8_profile.weak_phonemes (2 / 5) = ["a", "b", "c"] := by
  have ht : C8_profile.total_counts = [("a", 1), ("b", 1), ("c", 1)] := by decide
  have he : C8_profile.error_counts = [("a", 1), ("b", 1), ("c", 1)] := by decide
  unfold UserPronunciationProfile.weak_phonemes
  rw [ht, he]
  norm_num [List.filter, dget_cons]

/-- C8 counterexample: with profile C8_profile every reference token of
    ["a","b","c"] is currently weak, yet weighted_score gives 0 while the
    Levenshtein-based phoneme_accuracy gives 1/3: with uniform weights
    weighted_score is the positional match fraction, not the edit-distance
    accuracy the claim names. -/
theorem C8_counterexample :
    C8_profile.weak_phonemes (2 / 5) = ["a", "b", "c"]
    ∧ C8_profile.weighted_score ["a", "b", "c"] ["b", "c", "x"] = 0
    ∧ phoneme_accuracy ["a", "b", "c"] ["b", "c", "x"] = 1 / 3
    ∧ C8_profile.weighted_score ["a", "b", "c"] ["b", "c", "x"] ≠
        phoneme_accuracy ["a", "b", "c"] ["b", "c", "x"] := by
  have hws : C8_profile.weighted_score ["a", "b", "c"] ["b", "c", "x"] = 0 := by
    unfold UserPronunciationProfile.weighted_score wsFinal
    rw [C8_profile_weak]
    norm_num [weightedStep, List.zip, List.zipWith, List.foldl]
    rw [if_neg (by decide), if_neg (by decide), if_neg (by decide)]
    norm_num
  have hacc : phoneme_accuracy ["a", "b", "c"] ["b", "c", "x"] = 1 / 3 := by
    have hd : levenshtein_distance ["a", "b", "c"] ["b", "c", "x"] = 2 := by decide
    simp only [phoneme_accuracy, hd]
    norm_num
  exact ⟨C8_profile_weak, hws, hacc, by rw [hws, hacc]; norm_num⟩

theorem ws_fold_const (weak : List String) (c : ℚ) :
    ∀ (l : List (String × String)) (s w : ℚ),
      (∀ ru ∈ l, (if ru.1 ∈ weak then (2 : ℚ) else 1) = c) →
      l.foldl (weightedStep weak) (s, w) =
        (s + c * (l.countP (fun ru => ru.1 == ru.2) : ℚ),
         w + c * (l.length : ℚ)) := by
  intro l
  induction l with
  | nil => intro s w hall; simp
  | cons ru l ih =>
    intro s w hall
    rw [List.foldl_cons]
    have hw := hall ru (List.mem_cons_self ru l)
    have hstep : weightedStep weak (s, w) ru =
        (s + c * (if ru.1 = ru.2 then 1 else 0), w + c) := by
      unfold weightedStep
      rw [hw]
    rw [hstep, ih _ _ (fun x hx => hall x (List.mem_cons_of_mem _ hx)),
      List.countP_cons, List.length_cons]
    simp only [Prod.mk.injEq]
    constructor
    · by_cases hm : ru.1 = ru.2
      · simp only [hm, beq_self_eq_true, if_true, if_pos rfl]
        try push_cast
        try ring
      · have hb : (ru.1 == ru.2) = false := by simp [hm]
        simp only [hm, hb, if_false, Bool.false_eq_true]
        try push_cast
        try ring
    · push_cast
      ring

/-- C8 (amended): on an utterance whose reference tokens are all currently
    weak, weighted_score equals the uniform-weight score, i.e. the score a
    fresh profile assigns (the 2.0 weights cancel); it does not in general
    equal the Levenshtein-based phoneme_accuracy (see the counterexample). -/
theorem C8_weighted_score_uniform (p : UserPronunciationProfile)
    (ref usr : List String)
    (hweak : ∀ t ∈ ref, t ∈ p.weak_phonemes (2 / 5)) :
    p.weighted_score ref usr =
      UserPronunciationProfile.empty.weighted_score ref usr := by
  unfold UserPronunciationProfile.weighted_score
  have hall2 : ∀ ru ∈ ref.zip usr,
      (if ru.1 ∈ p.weak_phonemes (2 / 5) then (2 : ℚ) else 1) = 2 := by
    intro ru hru
    exact if_pos (hweak ru.1 (List.of_mem_zip hru).1)
  have hempty : UserPronunciationProfile.empty.weak_phonemes (2 / 5) = [] := rfl
  have hall1 : ∀ ru ∈ ref.zip usr,
      (if ru.1 ∈ UserPronunciationProfile.empty.weak_phonemes (2 / 5)
        then (2 : ℚ) else 1) = 1 := by
    intro ru hru
    rw [hempty]
    simp
  rw [ws_fold_const _ 2 _ 0 0 hall2, ws_fold_const _ 1 _ 0 0 hall1]
  unfold wsFinal
  simp only [zero_add, one_mul]
  by_cases hn : (ref.zip usr).length = 0
  · rw [hn]
    norm_num
  · have hnpos : (0 : ℚ) < ((ref.zip usr).length : ℚ) := by
      have h' : 0 < (ref.zip usr).length := Nat.pos_of_ne_zero hn
      exact_mod_cast h'
    rw [if_pos (by linarith), if_pos hnpos,
      mul_div_mul_left _ _ (by norm_num : (2 : ℚ) ≠ 0)]

theorem C8_weighted_score_uniform_witness :
    (∀ t ∈ (["a", "b", "c"] : List String), t ∈ C8_profile.weak_phonemes (2 / 5))
    ∧ C8_profile.weighted_score ["a", "b", "c"] ["b", "c", "x"] =
        UserPronunciationProfile.empty.weighted_score ["a", "b", "c"]
          ["b", "c", "x"] :=
  ⟨fun t ht => by rw [C8_profile_weak]; exact ht,
   C8_weighted_score_uniform C8_profile ["a", "b", "c"] ["b", "c", "x"]
     (fun t ht => by rw [C8_profile_weak]; exact ht)⟩

/-- C7: audio_to_phonemes raises its InvalidInput condition exactly when
    reference_text is missing or empty/whitespace; when the reference text
    is present and non-blank but the phonemizer yields zero tokens, it
    returns the empty observed sequence instead of failing. -/
theorem C7_extraction_gate (referenceText : Option String)
    (phonemizerOut : String) :
    (audio_to_phonemes_gate referenceText phonemizerOut =
        ExtractOutcome.invalidInput ↔
      (referenceText = none ∨
        ∃ t, referenceText = some t ∧ pyBlank t = true))
    ∧ (∀ t, referenceText = some t → pyBlank t = false →
        pySplit phonemizerOut = [] →
        audio_to_phonemes_gate referenceText phonemizerOut =
          ExtractOutcome.emptyObserved) := by
  constructor
  · cases referenceText with
    | none => simp [audio_to_phonemes_gate]
    | some t =>
      simp only [audio_to_phonemes_gate]
      by_cases ht : pyBlank t = true
      · simp [ht]
      · rw [if_neg (by simp [ht])]
        constructor
        · intro h
          by_cases h1 : phonemizerOut = ""
          · rw [if_pos h1] at h
            cases h
          · rw [if_neg h1] at h
            by_cases h2 : pySplit phonemizerOut = []
            · rw [if_pos h2] at h
              cases h
            · rw [if_neg h2] at h
              cases h
        · rintro (h | ⟨t', ht', htrim⟩)
          · cases h
          · rw [Option.some.injEq] at ht'
            subst ht'
            exact absurd htrim ht
  · intro t ht htrim hsplit
    subst ht
    simp only [audio_to_phonemes_gate]
    rw [if_neg (by simp [htrim])]
    by_cases h1 : phonemizerOut = ""
    · rw [if_pos h1]
    · rw [if_neg h1, if_pos hsplit]

theorem C7_extraction_gate_witness :
    audio_to_phonemes_gate (some "hi") "   " = ExtractOutcome.emptyObserved :=
  (C7_extraction_gate (some "hi") "   ").2 "hi" rfl (by decide) (by decide)

/-- C1 counterexample: a 2-sample buffer has a single analysis frame, so the
    candidate loop range(1, len(energy)-1) is empty no matter what the
    acoustic features are; with target_count = 3 the split loop degenerates
    to [0, 0, 1, 2], which is not strictly increasing, refuting the claim
    as stated for every buffer and every target_count >= 1. -/
theorem C1_counterexample :
    audioBoundaries 2 3 (fun _ => false) = [0, 0, 1, 2]
    ∧ ¬ List.Chain' (· < ·) (audioBoundaries 2 3 (fun _ => false)) := by
  have h : audioBoundaries 2 3 (fun _ => false) = [0, 0, 1, 2] := by decide
  refine ⟨h, ?_⟩
  rw [h]
  simp [List.chain'_cons]

theorem framePositions_le (audioLen : Nat) (isCand : Nat → Bool) :
    ∀ x ∈ framePositions audioLen isCand, x ≤ audioLen := by
  intro x hx
  unfold framePositions at hx
  simp only [List.mem_map, List.mem_filter, List.mem_range, Bool.and_eq_true,
    decide_eq_true_eq] at hx
  obtain ⟨i, ⟨hir, hcond⟩, rfl⟩ := hx
  obtain ⟨⟨hi1, hi2⟩, -⟩ := hcond
  unfold numFrames at hi2
  omega

theorem acceptCands_subset : ∀ (qs : List Nat) (last x : Nat),
    x ∈ acceptCands last qs → x ∈ qs := by
  intro qs
  induction qs with
  | nil => intro last x hx; cases hx
  | cons q rest ih =>
    intro last x hx
    unfold acceptCands at hx
    by_cases h : last + 800 < q
    · rw [if_pos h] at hx
      rcases List.mem_cons.mp hx with rfl | hx'
      · exact List.mem_cons_self _ _
      · exact List.mem_cons_of_mem _ (ih q x hx')
    · rw [if_neg h] at hx
      exact List.mem_cons_of_mem _ (ih last x hx)

theorem acceptCands_lb : ∀ (qs : List Nat) (last x : Nat),
    x ∈ acceptCands last qs → last + 800 < x := by
  intro qs
  induction qs with
  | nil => intro last x hx; cases hx
  | cons q rest ih =>
    intro last x hx
    unfold acceptCands at hx
    by_cases h : last + 800 < q
    · rw [if_pos h] at hx
      rcases List.mem_cons.mp hx with rfl | hx'
      · exact h
      · have := ih q x hx'
        omega
    · rw [if_neg h] at hx
      exact ih last x hx

theorem acceptCands_chain : ∀ (qs : List Nat) (last : Nat),
    List.Chain' (· < ·) (acceptCands last qs) := by
  intro qs
  induction qs with
  | nil => intro last; exact List.chain'_nil
  | cons q rest ih =>
    intro last
    unfold acceptCands
    by_cases h : last + 800 < q
    · rw [if_pos h, List.chain'_cons']
      refine ⟨?_, ih q⟩
      intro y hy
      have hmem : y ∈ acceptCands q rest := List.mem_of_mem_head? hy
      have := acceptCands_lb rest q y hmem
      omega
    · rw [if_neg h]
      exact ih last

theorem initialBoundaries_chain (audioLen : Nat) (positions : List Nat)
    (hpos : ∀ x ∈ positions, x ≤ audioLen) :
    List.Chain' (· ≤ ·) (initialBoundaries audioLen positions) := by
  unfold initialBoundaries
  rw [List.chain'_cons']
  refine ⟨fun y _ => Nat.zero_le y, ?_⟩
  rw [List.chain'_append]
  refine ⟨(acceptCands_chain positions 0).imp (fun a b h => Nat.le_of_lt h), by simp, ?_⟩
  intro x hx y hy
  have hxm : x ∈ acceptCands 0 positions := List.mem_of_mem_getLast? hx
  have hxa : x ≤ audioLen := hpos x (acceptCands_subset positions 0 x hxm)
  simp only [List.head?_cons, Option.mem_def, Option.some.injEq] at hy
  omega

theorem initialBoundaries_head (audioLen : Nat) (positions : List Nat) :
    (initialBoundaries audioLen positions).head? = some 0 := rfl

theorem initialBoundaries_last (audioLen : Nat) (positions : List Nat) :
    (initialBoundaries audioLen positions).getLast? = some audioLen := by
  unfold initialBoundaries
  rw [show (0 :: (acceptCands 0 positions ++ [audioLen])) =
      ((0 :: acceptCands 0 positions) ++ [audioLen]) from rfl]
  exact List.getLast?_concat _

theorem initialBoundaries_mem (audioLen : Nat) (positions : List Nat)
    (hpos : ∀ x ∈ positions, x ≤ audioLen) :
    ∀ x ∈ initialBoundaries audioLen positions, x ≤ audioLen := by
  intro x hx
  unfold initialBoundaries at hx
  rcases List.mem_cons.mp hx with rfl | hx
  · exact Nat.zero_le _
  · rcases List.mem_append.mp hx with hx | hx
    · exact hpos x (acceptCands_subset positions 0 x hx)
    · rw [List.mem_singleton] at hx
      omega

theorem initialBoundaries_len (audioLen : Nat) (positions : List Nat) :
    2 ≤ (initialBoundaries audioLen positions).length := by
  unfold initialBoundaries
  simp [List.length_append]

theorem argminAux_lt : ∀ (gs : List Nat) (i : Nat) (b : Option Nat) (bi N : Nat),
    bi < N → i + gs.length ≤ N → argminAux gs i b bi < N := by
  intro gs
  induction gs with
  | nil => intro i b bi N hbi _; exact hbi
  | cons g rest ih =>
    intro i b bi N hbi hlen
    simp only [List.length_cons] at hlen
    cases b with
    | none =>
      unfold argminAux
      exact ih (i + 1) (some g) i N (by omega) (by omega)
    | some bv =>
      unfold argminAux
      by_cases h : g < bv
      · rw [if_pos h]
        exact ih (i + 1) (some g) i N (by omega) (by omega)
      · rw [if_neg h]
        exact ih (i + 1) (some bv) bi N hbi (by omega)

theorem argminGaps_lt (gs : List Nat) (h : 0 < gs.length) :
    argminGaps gs < gs.length :=
  argminAux_lt gs 0 none 0 gs.length h (by omega)

theorem argmaxAux_lt : ∀ (gs : List Nat) (i b bi N : Nat),
    bi < N → i + gs.length ≤ N → argmaxAux gs i b bi < N := by
  intro gs
  induction gs with
  | nil => intro i b bi N hbi _; exact hbi
  | cons g rest ih =>
    intro i b bi N hbi hlen
    simp only [List.length_cons] at hlen
    unfold argmaxAux
    by_cases h : b < g
    · rw [if_pos h]
      exact ih (i + 1) g i N (by omega) (by omega)
    · rw [if_neg h]
      exact ih (i + 1) b bi N hbi (by omega)

theorem argmaxGaps_lt (gs : List Nat) (h : 0 < gs.length) :
    argmaxGaps gs < gs.length :=
  argmaxAux_lt gs 0 0 0 gs.length h (by omega)

theorem gapsOf_length (bs : List Nat) : (gapsOf bs).length = bs.length - 1 := by
  unfold gapsOf
  rw [List.length_map, List.length_zip]
  cases bs with
  | nil => simp
  | cons b l => simp [List.length_tail]

theorem getD_mem_of_lt (l : List Nat) (i : Nat) (h : i < l.length) :
    l.getD i 0 ∈ l := by
  rw [List.getD_eq_getElem?_getD, List.getElem?_eq_getElem h]
  simp only [Option.getD_some]
  exact List.getElem_mem h

theorem chain'_getD_le : ∀ (bs : List Nat), List.Chain' (· ≤ ·) bs →
    ∀ i, i + 1 < bs.length → bs.getD i 0 ≤ bs.getD (i + 1) 0 := by
  intro bs
  induction bs with
  | nil => intro _ i h; simp at h
  | cons a l ih =>
    intro hc i hi
    cases l with
    | nil => simp at hi
    | cons b m =>
      rcases List.chain'_cons.mp hc with ⟨hab, hc'⟩
      cases i with
      | zero => simpa using hab
      | succ j =>
        have := ih hc' j (by simpa using hi)
        simpa using this

theorem chain'_insertIdx_mid : ∀ (bs : List Nat) (i m : Nat),
    List.Chain' (· ≤ ·) bs → i + 1 < bs.length →
    bs.getD i 0 ≤ m → m ≤ bs.getD (i + 1) 0 →
    List.Chain' (· ≤ ·) (List.insertIdx (i + 1) m bs) := by
  intro bs
  induction bs with
  | nil => intro i m _ hi; simp at hi
  | cons a l ih =>
    intro i m hc hi hlo hhi
    cases i with
    | zero =>
      cases l with
      | nil => simp at hi
      | cons b l' =>
        rw [List.insertIdx_succ_cons]
        rcases List.chain'_cons.mp hc with ⟨hab, hc'⟩
        rw [show List.insertIdx 0 m (b :: l') = m :: b :: l' from rfl,
          List.chain'_cons, List.chain'_cons]
        exact ⟨by simpa using hlo, by simpa using hhi, hc'⟩
    | succ j =>
      cases l with
      | nil => simp at hi
      | cons b l' =>
        rw [List.insertIdx_succ_cons]
        rcases List.chain'_cons.mp hc with ⟨hab, hc'⟩
        rw [List.chain'_cons']
        constructor
        · intro y hy
          rw [List.insertIdx_succ_cons] at hy
          simp only [List.head?_cons, Option.mem_def, Option.some.injEq] at hy
          omega
        · exact ih j m hc' (by simpa using hi) (by simpa using hlo)
            (by simpa using hhi)

theorem getLast?_cons_of_ne_nil (a : Nat) (l : List Nat) (h : l ≠ []) :
    (a :: l).getLast? = l.getLast? := by
  cases l with
  | nil => exact absurd rfl h
  | cons b t => rw [List.getLast?_cons_cons]

theorem insertIdx_getLast? : ∀ (l : List Nat) (i m : Nat), i < l.length →
    (List.insertIdx i m l).getLast? = l.getLast? := by
  intro l
  induction l with
  | nil => intro i m h; simp at h
  | cons a t ih =>
    intro i m h
    cases i with
    | zero =>
      rw [show List.insertIdx 0 m (a :: t) = m :: a :: t from rfl,
        List.getLast?_cons_cons]
    | succ j =>
      rw [List.insertIdx_succ_cons]
      have hjt : j < t.length := by simpa using h
      have htne : t ≠ [] := by
        cases t with
        | nil => simp at hjt
        | cons b t' => simp
      have hins : List.insertIdx j m t ≠ [] := by
        have : (List.insertIdx j m t).length = t.length + 1 :=
          List.length_insertIdx j t (by omega)
        intro hnil
        rw [hnil] at this
        simp at this
      rw [getLast?_cons_of_ne_nil a _ hins, getLast?_cons_of_ne_nil a t htne]
      exact ih j m hjt

theorem mergeLoop_length : ∀ (fuel target : Nat) (bs : List Nat),
    target + 1 ≤ bs.length → bs.length ≤ fuel + (target + 1) →
    (mergeLoop target fuel bs).length = target + 1 := by
  intro fuel
  induction fuel with
  | zero =>
    intro target bs h1 h2
    unfold mergeLoop
    omega
  | succ n ih =>
    intro target bs h1 h2
    unfold mergeLoop
    by_cases h : target + 1 < bs.length
    · rw [if_pos h]
      have hg : 0 < (gapsOf bs).length := by rw [gapsOf_length]; omega
      have hidx : argminGaps (gapsOf bs) + 1 < bs.length := by
        have := argminGaps_lt (gapsOf bs) hg
        rw [gapsOf_length] at this
        omega
      have hlen : (bs.eraseIdx (argminGaps (gapsOf bs) + 1)).length =
          bs.length - 1 := by
        rw [List.length_eraseIdx, if_pos hidx]
      exact ih target _ (by omega) (by omega)
    · rw [if_neg h]
      omega

theorem mergeLoop_noop (target fuel : Nat) (bs : List Nat)
    (h : bs.length ≤ target + 1) : mergeLoop target fuel bs = bs := by
  cases fuel with
  | zero => rfl
  | succ n =>
    unfold mergeLoop
    rw [if_neg (by omega)]

theorem mergeLoop_sublist : ∀ (fuel target : Nat) (bs : List Nat),
    (mergeLoop target fuel bs).Sublist bs := by
  intro fuel
  induction fuel with
  | zero => intro t bs; exact List.Sublist.refl bs
  | succ n ih =>
    intro t bs
    unfold mergeLoop
    by_cases h : t + 1 < bs.length
    · rw [if_pos h]
      exact (ih t _).trans (List.eraseIdx_sublist bs _)
    · rw [if_neg h]

theorem mergeLoop_head : ∀ (fuel target : Nat) (bs : List Nat) (a : Nat),
    bs.head? = some a → (mergeLoop target fuel bs).head? = some a := by
  intro fuel
  induction fuel with
  | zero => intro t bs a h; exact h
  | succ n ih =>
    intro t bs a h
    unfold mergeLoop
    by_cases hl : t + 1 < bs.length
    · rw [if_pos hl]
      apply ih
      cases bs with
      | nil => simp at h
      | cons b l =>
        rw [List.eraseIdx_cons_succ]
        simpa using h
    · rw [if_neg hl]
      exact h

theorem splitLoop_noop (target fuel : Nat) (bs : List Nat)
    (h : target + 1 ≤ bs.length) : splitLoop target fuel bs = bs := by
  cases fuel with
  | zero => rfl
  | succ n =>
    unfold splitLoop
    rw [if_neg (by omega)]

theorem splitLoop_length : ∀ (fuel target : Nat) (bs : List Nat),
    2 ≤ bs.length → bs.length ≤ target + 1 → target + 1 ≤ bs.length + fuel →
    (splitLoop target fuel bs).length = target + 1 := by
  intro fuel
  induction fuel with
  | zero =>
    intro t bs h2 hle hge
    unfold splitLoop
    omega
  | succ n ih =>
    intro t bs h2 hle hge
    unfold splitLoop
    by_cases h : bs.length < t + 1
    · rw [if_pos h]
      have hg : 0 < (gapsOf bs).length := by rw [gapsOf_length]; omega
      have hidx : argmaxGaps (gapsOf bs) + 1 < bs.length := by
        have := argmaxGaps_lt (gapsOf bs) hg
        rw [gapsOf_length] at this
        omega
      have hlen : (List.insertIdx (argmaxGaps (gapsOf bs) + 1)
          ((bs.getD (argmaxGaps (gapsOf bs)) 0 +
            bs.getD (argmaxGaps (gapsOf bs) + 1) 0) / 2) bs).length =
          bs.length + 1 :=
        List.length_insertIdx _ _ (by omega)
      exact ih t _ (by omega) (by omega) (by omega)
    · rw [if_neg h]
      omega

theorem splitLoop_inv (audioLen : Nat) : ∀ (fuel target : Nat) (bs : List Nat),
    2 ≤ bs.length → List.Chain' (· ≤ ·) bs → (∀ x ∈ bs, x ≤ audioLen) →
    List.Chain' (· ≤ ·) (splitLoop target fuel bs)
      ∧ (∀ x ∈ splitLoop target fuel bs, x ≤ audioLen)
      ∧ (splitLoop target fuel bs).head? = bs.head?
      ∧ (splitLoop target fuel bs).getLast? = bs.getLast? := by
  intro fuel
  induction fuel with
  | zero => intro t bs h2 hc hm; exact ⟨hc, hm, rfl, rfl⟩
  | succ n ih =>
    intro t bs h2 hc hm
    unfold splitLoop
    by_cases h : bs.length < t + 1
    · rw [if_pos h]
      have hg : 0 < (gapsOf bs).length := by rw [gapsOf_length]; omega
      have hidx : argmaxGaps (gapsOf bs) + 1 < bs.length := by
        have := argmaxGaps_lt (gapsOf bs) hg
        rw [gapsOf_length] at this
        omega
      have hab : bs.getD (argmaxGaps (gapsOf bs)) 0 ≤
          bs.getD (argmaxGaps (gapsOf bs) + 1) 0 :=
        chain'_getD_le bs hc _ hidx
      have hlo : bs.getD (argmaxGaps (gapsOf bs)) 0 ≤
          (bs.getD (argmaxGaps (gapsOf bs)) 0 +
            bs.getD (argmaxGaps (gapsOf bs) + 1) 0) / 2 := by omega
      have hhi : (bs.getD (argmaxGaps (gapsOf bs)) 0 +
            bs.getD (argmaxGaps (gapsOf bs) + 1) 0) / 2 ≤
          bs.getD (argmaxGaps (gapsOf bs) + 1) 0 := by omega
      have hc' := chain'_insertIdx_mid bs _ _ hc hidx hlo hhi
      have hm' : ∀ x ∈ List.insertIdx (argmaxGaps (gapsOf bs) + 1)
          ((bs.getD (argmaxGaps (gapsOf bs)) 0 +
            bs.getD (argmaxGaps (gapsOf bs) + 1) 0) / 2) bs, x ≤ audioLen := by
        intro x hx
        rcases (List.mem_insertIdx (by omega)).mp hx with rfl | hx'
        · exact hhi.trans (hm _ (getD_mem_of_lt bs _ hidx))
        · exact hm x hx'
      have h2' : 2 ≤ (List.insertIdx (argmaxGaps (gapsOf bs) + 1)
          ((bs.getD (argmaxGaps (gapsOf bs)) 0 +
            bs.getD (argmaxGaps (gapsOf bs) + 1) 0) / 2) bs).length := by
        rw [List.length_insertIdx _ _ (by omega)]
        omega
      obtain ⟨c1, c2, c3, c4⟩ := ih t _ h2' hc' hm'
      refine ⟨c1, c2, ?_, ?_⟩
      · rw [c3]
        cases bs with
        | nil => simp at h2
        | cons a l =>
          rw [List.insertIdx_succ_cons]
          rfl
      · rw [c4, insertIdx_getLast? bs _ _ hidx]
    · rw [if_neg h]
      exact ⟨hc, hm, rfl, rfl⟩

/-- C1 (amended): for every buffer length, candidate oracle and
    target_count >= 1, the boundary list has exactly target_count + 1
    entries, is nondecreasing, starts at 0, and stays within
    [0, len(audio)]; the final entry equals len(audio) whenever the initial
    candidate pass produces at most target_count + 1 boundaries (no merge
    step runs).  Strict increase fails on degenerate short buffers (split
    duplicates a boundary), and the merge step can drop the final boundary
    when the last gap is the smallest, so neither is guaranteed in
    general. -/
theorem C1_boundaries (audioLen target : Nat) (isCand : Nat → Bool)
    (ht : 1 ≤ target) :
    (audioBoundaries audioLen target isCand).length = target + 1
    ∧ List.Chain' (· ≤ ·) (audioBoundaries audioLen target isCand)
    ∧ (audioBoundaries audioLen target isCand).head? = some 0
    ∧ (∀ x ∈ audioBoundaries audioLen target isCand, x ≤ audioLen)
    ∧ ((initialBoundaries audioLen (framePositions audioLen isCand)).length ≤
          target + 1 →
        (audioBoundaries audioLen target isCand).getLast? = some audioLen) := by
  have hpos := framePositions_le audioLen isCand
  have hchain0 := initialBoundaries_chain audioLen _ hpos
  have hhead0 := initialBoundaries_head audioLen (framePositions audioLen isCand)
  have hlast0 := initialBoundaries_last audioLen (framePositions audioLen isCand)
  have hmem0 := initialBoundaries_mem audioLen _ hpos
  have hlen0 := initialBoundaries_len audioLen (framePositions audioLen isCand)
  unfold audioBoundaries reconcile
  by_cases hcase : target + 1 ≤
      (initialBoundaries audioLen (framePositions audioLen isCand)).length
  · have hlen1 := mergeLoop_length
      (initialBoundaries audioLen (framePositions audioLen isCand)).length
      target (initialBoundaries audioLen (framePositions audioLen isCand))
      hcase (by omega)
    rw [splitLoop_noop target (target + 1) _ (by omega)]
    have hsub1 := mergeLoop_sublist
      (initialBoundaries audioLen (framePositions audioLen isCand)).length
      target (initialBoundaries audioLen (framePositions audioLen isCand))
    refine ⟨hlen1, hchain0.sublist hsub1, mergeLoop_head _ _ _ _ hhead0,
      fun x hx => hmem0 x (hsub1.subset hx), ?_⟩
    intro hinit
    rw [mergeLoop_noop _ _ _ (by omega)]
    exact hlast0
  · push_neg at hcase
    rw [mergeLoop_noop _ _ _ (by omega)]
    obtain ⟨c1, c2, c3, c4⟩ := splitLoop_inv audioLen (target + 1) target
      (initialBoundaries audioLen (framePositions audioLen isCand))
      hlen0 hchain0 hmem0
    have hslen := splitLoop_length (target + 1) target
      (initialBoundaries audioLen (framePositions audioLen isCand))
      hlen0 (by omega) (by omega)
    exact ⟨hslen, c1, by rw [c3]; exact hhead0, c2,
      fun _ => by rw [c4]; exact hlast0⟩

theorem C1_boundaries_witness :
    (1 ≤ 3)
    ∧ ((audioBoundaries 2 3 (fun _ => false)).length = 3 + 1
      ∧ List.Chain' (· ≤ ·) (audioBoundaries 2 3 (fun _ => false))
      ∧ (audioBoundaries 2 3 (fun _ => false)).head? = some 0
      ∧ (∀ x ∈ audioBoundaries 2 3 (fun _ => false), x ≤ 2)
      ∧ ((initialBoundaries 2 (framePositions 2 (fun _ => false))).length ≤
            3 + 1 →
          (audioBoundaries 2 3 (fun _ => false)).getLast? = some 2)) :=
  ⟨by omega, C1_boundaries 2 3 (fun _ => false) (by omega)⟩

theorem jGet_cons_hit (k : String) (v : JVal) (rest : List (String × JVal))
    (d : JVal) : jGet ((k, v) :: rest) k d = v := by
  simp [jGet, List.find?]

theorem jGet_cons_miss (k k' : String) (h : k' ≠ k) (v : JVal)
    (rest : List (String × JVal)) (d : JVal) :
    jGet ((k', v) :: rest) k d = jGet rest k d := by
  have hb : (k' == k) = false := by simp [h]
  simp [jGet, List.find?, hb]

theorem parseCountsList_encode : ∀ (d : List (String × Nat)),
    parseCountsList (d.map (fun kv => (kv.1, JVal.jnum (kv.2 : ℚ)))) = some d := by
  intro d
  induction d with
  | nil => rfl
  | cons kv rest ih =>
    obtain ⟨k, v⟩ := kv
    simp only [List.map_cons, parseCountsList, Rat.den_natCast, Rat.num_natCast]
    rw [if_pos (by simp), ih]
    simp

theorem parseCounts_encode (d : List (String × Nat)) :
    parseCounts (JVal.jobj (d.map (fun kv => (kv.1, JVal.jnum (kv.2 : ℚ))))) =
      some d := parseCountsList_encode d

theorem parseStrList_encode : ∀ (l : List String),
    parseStrList (l.map JVal.jstr) = some l := by
  intro l
  induction l with
  | nil => rfl
  | cons u rest ih =>
    simp only [List.map_cons, parseStrList]
    rw [ih]

theorem parseWordRec_encode (r : WordRec) :
    parseWordRec (saveWordRec r) = some (truncRec r) := by
  simp only [saveWordRec, parseWordRec]
  rw [jGet_cons_hit,
    jGet_cons_miss _ _ (by decide), jGet_cons_hit,
    jGet_cons_miss _ _ (by decide), jGet_cons_miss _ _ (by decide), jGet_cons_hit,
    jGet_cons_miss _ _ (by decide), jGet_cons_miss _ _ (by decide),
      jGet_cons_miss _ _ (by decide), jGet_cons_hit,
    jGet_cons_miss _ _ (by decide), jGet_cons_miss _ _ (by decide),
      jGet_cons_miss _ _ (by decide), jGet_cons_miss _ _ (by decide), jGet_cons_hit]
  simp only [Rat.den_natCast, Rat.num_natCast, Int.toNat_natCast]
  rw [if_pos (by simp), parseStrList_encode]
  simp [truncRec]

theorem wput_append (d : List (String × WordRec)) (k : String) (v : WordRec)
    (h : k ∉ d.map Prod.fst) : wput d k v = d ++ [(k, v)] := by
  induction d with
  | nil => rfl
  | cons kv rest ih =>
    obtain ⟨k', v'⟩ := kv
    simp only [List.map_cons, List.mem_cons, not_or] at h
    unfold wput
    rw [if_neg (fun he => h.1 he.symm), ih h.2]
    simp

theorem loadWords_encode : ∀ (entries : List (String × WordRec))
    (p : UserPronunciationProfile),
    (∀ k ∈ entries.map Prod.fst, k ∉ p.word_errors.map Prod.fst) →
    (entries.map Prod.fst).Nodup →
    loadWords p (entries.map (fun kv => (kv.1, saveWordRec kv.2))) =
      ({ p with word_errors :=
          p.word_errors ++ entries.map (fun kv => (kv.1, truncRec kv.2)) },
        false) := by
  intro entries
  induction entries with
  | nil =>
    intro p _ _
    simp [loadWords]
  | cons kv rest ih =>
    intro p hdisj hnd
    obtain ⟨w, r⟩ := kv
    simp only [List.map_cons, loadWords, parseWordRec_encode]
    have hwnew : w ∉ p.word_errors.map Prod.fst :=
      hdisj w (by simp)
    rw [wput_append _ _ _ hwnew]
    simp only [List.map_cons, List.nodup_cons] at hnd
    have hdisj' : ∀ k ∈ rest.map Prod.fst,
        k ∉ (p.word_errors ++ [(w, truncRec r)]).map Prod.fst := by
      intro k hk
      simp only [List.map_append, List.mem_append, List.map_cons, List.map_nil,
        List.mem_singleton, not_or]
      refine ⟨hdisj k (by simp [hk]), ?_⟩
      intro he
      exact hnd.1 (he ▸ hk)
    have := ih { p with word_errors := p.word_errors ++ [(w, truncRec r)] }
      hdisj' hnd.2
    rw [this]
    simp [List.append_assoc]

theorem loadSubsts_success : ∀ (entries : List (String × List (String × Nat)))
    (p : UserPronunciationProfile),
    ∃ p2, loadSubsts p (entries.map (fun kv =>
        (kv.1, JVal.jobj (kv.2.map (fun uv => (uv.1, JVal.jnum (uv.2 : ℚ))))))) =
        (p2, false)
      ∧ p2.error_counts = p.error_counts
      ∧ p2.total_counts = p.total_counts
      ∧ p2.word_errors = p.word_errors := by
  intro entries
  induction entries with
  | nil =>
    intro p
    exact ⟨p, rfl, rfl, rfl, rfl⟩
  | cons kv rest ih =>
    intro p
    obtain ⟨k, m⟩ := kv
    simp only [List.map_cons, loadSubsts, parseCounts_encode]
    exact ih { p with phoneme_substitutions := sput p.phoneme_substitutions k m }

theorem wget_trunc_rate : ∀ (l : List (String × WordRec)) (w : String),
    (wget (l.map (fun kv => (kv.1, truncRec kv.2))) w).error_rate =
      (wget l w).error_rate := by
  intro l
  induction l with
  | nil => intro w; rfl
  | cons kv rest ih =>
    intro w
    obtain ⟨k, r⟩ := kv
    by_cases h : k = w
    · subst h
      simp [wget, List.find?, truncRec]
    · have hb : (k == w) = false := by simp [h]
      simp only [List.map_cons, wget, List.find?, hb]
      exact ih w

theorem loadFromDoc_save_general (ec tc : List (String × Nat))
    (wes : List (String × WordRec)) (subs : List (String × List (String × Nat)))
    (p0 : UserPronunciationProfile)
    (hdisj : ∀ k ∈ wes.map Prod.fst, k ∉ p0.word_errors.map Prod.fst)
    (hnd : (wes.map Prod.fst).Nodup) :
    ∃ s2, loadFromDoc p0 (JVal.jobj
      [("error_counts",
        JVal.jobj (ec.map (fun kv => (kv.1, JVal.jnum (kv.2 : ℚ))))),
       ("total_counts",
        JVal.jobj (tc.map (fun kv => (kv.1, JVal.jnum (kv.2 : ℚ))))),
       ("word_errors", JVal.jobj (wes.map (fun kv => (kv.1, saveWordRec kv.2)))),
       ("phoneme_substitutions", JVal.jobj (subs.map (fun kv =>
          (kv.1, JVal.jobj (kv.2.map (fun uv => (uv.1, JVal.jnum (uv.2 : ℚ))))))))]) =
      ({ error_counts := ec, total_counts := tc,
         word_errors := p0.word_errors ++ wes.map (fun kv => (kv.1, truncRec kv.2)),
         phoneme_substitutions := s2 }, false) := by
  have hm1 : ∀ (v : JVal) (rest : List (String × JVal)) (d : JVal),
      jGet (("error_counts", v) :: rest) "total_counts" d =
        jGet rest "total_counts" d :=
    fun v rest d => jGet_cons_miss _ _ (by decide) v rest d
  have hm2 : ∀ (v : JVal) (rest : List (String × JVal)) (d : JVal),
      jGet (("error_counts", v) :: rest) "word_errors" d =
        jGet rest "word_errors" d :=
    fun v rest d => jGet_cons_miss _ _ (by decide) v rest d
  have hm3 : ∀ (v : JVal) (rest : List (String × JVal)) (d : JVal),
      jGet (("total_counts", v) :: rest) "word_errors" d =
        jGet rest "word_errors" d :=
    fun v rest d => jGet_cons_miss _ _ (by decide) v rest d
  have hm4 : ∀ (v : JVal) (rest : List (String × JVal)) (d : JVal),
      jGet (("error_counts", v) :: rest) "phoneme_substitutions" d =
        jGet rest "phoneme_substitutions" d :=
    fun v rest d => jGet_cons_miss _ _ (by decide) v rest d
  have hm5 : ∀ (v : JVal) (rest : List (String × JVal)) (d : JVal),
      jGet (("total_counts", v) :: rest) "phoneme_substitutions" d =
        jGet rest "phoneme_substitutions" d :=
    fun v rest d => jGet_cons_miss _ _ (by decide) v rest d
  have hm6 : ∀ (v : JVal) (rest : List (String × JVal)) (d : JVal),
      jGet (("word_errors", v) :: rest) "phoneme_substitutions" d =
        jGet rest "phoneme_substitutions" d :=
    fun v rest d => jGet_cons_miss _ _ (by decide) v rest d
  simp only [loadFromDoc, jGet_cons_hit, hm1, hm2, hm3, hm4, hm5, hm6,
    parseCounts_encode]
  rw [loadWords_encode wes
    { error_counts := ec, total_counts := tc, word_errors := p0.word_errors,
      phoneme_substitutions := p0.phoneme_substitutions } hdisj hnd]
  simp only []
  obtain ⟨p2, hload, he, htc, hw⟩ := loadSubsts_success subs
    { error_counts := ec, total_counts := tc,
      word_errors := p0.word_errors ++ wes.map (fun kv => (kv.1, truncRec kv.2)),
      phoneme_substitutions := p0.phoneme_substitutions }
  rw [hload]
  refine ⟨p2.phoneme_substitutions, ?_⟩
  have hp2 : p2 =
      { error_counts := ec, total_counts := tc,
        word_errors := p0.word_errors ++ wes.map (fun kv => (kv.1, truncRec kv.2)),
        phoneme_substitutions := p2.phoneme_substitutions } := by
    cases p2
    simp_all
  rw [← hp2]

/-- C5: saving a profile and loading the saved document into a fresh profile
    reproduces identical per-phoneme total counts, per-phoneme error counts,
    and per-word error rates; the load runs through with no warning.  The
    no-duplicate-word-keys hypothesis holds for every state a Python dict
    can actually be in. -/
theorem C5_save_load_roundtrip (p : UserPronunciationProfile)
    (hnodup : (p.word_errors.map Prod.fst).Nodup) :
    (UserPronunciationProfile.empty.load (FileContents.parsed p.save)).2 = false
    ∧ (∀ t, dget (UserPronunciationProfile.empty.load
        (FileContents.parsed p.save)).1.total_counts t = dget p.total_counts t)
    ∧ (∀ t, dget (UserPronunciationProfile.empty.load
        (FileContents.parsed p.save)).1.error_counts t = dget p.error_counts t)
    ∧ (∀ w, (wget (UserPronunciationProfile.empty.load
        (FileContents.parsed p.save)).1.word_errors w).error_rate =
          (wget p.word_errors w).error_rate) := by
  obtain ⟨s2, hmain⟩ := loadFromDoc_save_general p.error_counts p.total_counts
    p.word_errors p.phoneme_substitutions UserPronunciationProfile.empty
    (fun k _ h => by simp [UserPronunciationProfile.empty] at h) hnodup
  have hload : UserPronunciationProfile.empty.load (FileContents.parsed p.save) =
      ({ error_counts := p.error_counts, total_counts := p.total_counts,
         word_errors := p.word_errors.map (fun kv => (kv.1, truncRec kv.2)),
         phoneme_substitutions := s2 }, false) := by
    show loadFromDoc UserPronunciationProfile.empty p.save = _
    rw [show p.save = JVal.jobj
      [("error_counts",
        JVal.jobj (p.error_counts.map (fun kv => (kv.1, JVal.jnum (kv.2 : ℚ))))),
       ("total_counts",
        JVal.jobj (p.total_counts.map (fun kv => (kv.1, JVal.jnum (kv.2 : ℚ))))),
       ("word_errors",
        JVal.jobj (p.word_errors.map (fun kv => (kv.1, saveWordRec kv.2)))),
       ("phoneme_substitutions",
        JVal.jobj (p.phoneme_substitutions.map (fun kv =>
          (kv.1, JVal.jobj (kv.2.map (fun uv => (uv.1, JVal.jnum (uv.2 : ℚ))))))))]
      from rfl]
    rw [hmain]
    simp [UserPronunciationProfile.empty]
  rw [hload]
  refine ⟨rfl, fun t => rfl, fun t => rfl, fun w => ?_⟩
  exact wget_trunc_rate p.word_errors w

theorem C5_save_load_roundtrip_witness :
    (C5_profile.word_errors.map Prod.fst).Nodup
    ∧ ((UserPronunciationProfile.empty.load
          (FileContents.parsed C5_profile.save)).2 = false
      ∧ (∀ t, dget (UserPronunciationProfile.empty.load
          (FileContents.parsed C5_profile.save)).1.total_counts t =
            dget C5_profile.total_counts t)
      ∧ (∀ t, dget (UserPronunciationProfile.empty.load
          (FileContents.parsed C5_profile.save)).1.error_counts t =
            dget C5_profile.error_counts t)
      ∧ (∀ w, (wget (UserPronunciationProfile.empty.load
          (FileContents.parsed C5_profile.save)).1.word_errors w).error_rate =
            (wget C5_profile.word_errors w).error_rate)) :=
  ⟨by decide, C5_save_load_roundtrip C5_profile (by decide)⟩

/-- C6 counterexample: loading this corrupt document logs a warning but
    leaves the profile with error_counts loaded as a:3 (and everything else
    empty) — not the just-constructed empty state the claim requires. -/
theorem C6_counterexample :
    (UserPronunciationProfile.empty.load (FileContents.parsed C6_badDoc)).2 = true
    ∧ (UserPronunciationProfile.empty.load (FileContents.parsed C6_badDoc)).1 ≠
        UserPronunciationProfile.empty
    ∧ dget (UserPronunciationProfile.empty.load
        (FileContents.parsed C6_badDoc)).1.error_counts "a" = 3 :=
  ⟨by decide, by decide, by decide⟩

/-- C6 (amended): load never raises; a missing file returns with no change
    and no warning; contents that fail JSON parsing — or parse to something
    other than an object — leave the profile unchanged with only a logged
    warning.  A partially-valid object document, however, is loaded up to
    the first invalid section, so a corrupt file can leave the profile
    partially populated rather than in the just-constructed empty state
    (see the counterexample). -/
theorem C6_load_tolerant (p : UserPronunciationProfile) :
    p.load FileContents.missing = (p, false)
    ∧ p.load FileContents.notJson = (p, true)
    ∧ (∀ u : String, p.load (FileContents.parsed (JVal.jstr u)) = (p, true))
    ∧ (∀ q : ℚ, p.load (FileContents.parsed (JVal.jnum q)) = (p, true))
    ∧ (∀ xs : List JVal, p.load (FileContents.parsed (JVal.jarr xs)) = (p, true)) :=
  ⟨rfl, rfl, fun _ => rfl, fun _ => rfl, fun _ => rfl⟩

example : levenshtein_spec ["k", "æ", "t"] ["k", "b", "t"] = 1 := by
  simp [levenshtein_spec]
example : levenshtein_distance ["a", "b", "c"] ["b", "c", "x"] = 2 := by decide
example : levenshtein_spec ["a", "b", "c"] ["b", "c", "x"] = 2 := by
  simp [levenshtein_spec]
example : phoneme_accuracy ["h", "ɛ", "l", "oʊ"] ["h", "ɛ", "b", "oʊ"] = 3 / 4 := by
  have h : levenshtein_distance ["h", "ɛ", "l", "oʊ"] ["h", "ɛ", "b", "oʊ"] = 1 := by decide
  simp only [phoneme_accuracy, h]
  norm_num
example : phoneme_accuracy [] [] = 1 := by
  simp [phoneme_accuracy]
example : phoneme_accuracy ["a"] [] = 0 := by
  have h : levenshtein_distance ["a"] [] = 1 := by decide
  simp only [phoneme_accuracy, h]
  norm_num
